import Mathlib

/-!
# Market-data distribution hub

A shallow embedding of `server/internal/marketdata/service.go` (the
`MarketDataService` hub) and of the fetch cycle of
`server/internal/marketdata/datasource/yahoo.go`.

Go channels are reference values.  The subscriber channels created by
`Subscribe` live in an explicit heap (`MarketDataService.chans`); the registry
`subscribers` stores indices into that heap, so that the identity of the queue
returned by `Subscribe` is kept.
-/

namespace MarketDataHub

/-! ## Data model -/

/-- The record `MarketData` of service.go.  `Price` is a Go `float64`; the code
only ever copies it, so it is carried as its 64-bit pattern.  `Volume` is a Go
`int64`, likewise only copied. -/
structure MarketData where
  Symbol : String
  Price : Nat
  Volume : Int
  deriving DecidableEq, Repr

/-- A buffered channel `chan MarketData`: its capacity and the records
currently buffered, oldest first. -/
structure Chan where
  cap : Nat
  buf : List MarketData
  deriving DecidableEq, Repr

/-- The Go expression `make(chan MarketData, n)`. -/
def makeChan (n : Nat) : Chan := { cap := n, buf := [] }

/-- The statement `select { case c <- d: default: }` on a buffered channel: the
send is taken exactly when the buffer has room; the flag tells whether the send
case (true) or the default case (false) ran. -/
def trySend (c : Chan) (d : MarketData) : Chan × Bool :=
  if c.buf.length < c.cap then ({ c with buf := c.buf ++ [d] }, true) else (c, false)

/-- A receive `<-c` by the reader of a subscriber queue, when a record is
buffered. -/
def recv (c : Chan) : Option (MarketData × Chan) :=
  match c.buf with
  | [] => none
  | d :: rest => some (d, { c with buf := rest })

/-- A reference to a channel allocated by `Subscribe`: its index in the heap. -/
abbrev ChanRef := Nat

/-- A Go slice `[]chan MarketData`; `none` is the nil slice. -/
abbrev Slice := Option (List ChanRef)

/-- The elements a `range` loop over the slice visits (none for a nil slice). -/
def Slice.elems : Slice → List ChanRef
  | none => []
  | some l => l

/-- The Go builtin `append(s, c)`: the result is never nil. -/
def Slice.append (s : Slice) (c : ChanRef) : Slice := some (s.elems ++ [c])

/-- The Go map `map[string][]chan MarketData` as an association list. -/
abbrev SubscriberMap := List (String × Slice)

/-- The Go expression `m[k]`: the zero value (the nil slice) for an absent key. -/
def mapGet : SubscriberMap → String → Slice
  | [], _ => none
  | (k', v) :: rest, k => if k' = k then v else mapGet rest k

/-- The Go assignment `m[k] = v` on a map with string keys. -/
def mapSet {β : Type} : List (String × β) → String → β → List (String × β)
  | [], k, v => [(k, v)]
  | (k', v') :: rest, k, v =>
    if k' = k then (k, v) :: rest else (k', v') :: mapSet rest k v

/-- The keys present in the map. -/
def mapKeys (m : SubscriberMap) : List String := m.map Prod.fst

/-- What a value of the interface `DataSource` does when called: the result of
`Connect` (none is a nil error) and the records its `Stream` yields. -/
structure DataSource where
  connectErr : Option String
  stream : List MarketData
  deriving DecidableEq, Repr

/-- The struct `MarketDataService` together with the heap of the channels that
`Subscribe` has allocated (`chans`; `subscribers` refers to them by index). -/
structure MarketDataService where
  sources : List (String × DataSource)
  dataChannel : Chan
  subscribers : SubscriberMap
  chans : List Chan
  deriving DecidableEq, Repr

/-! ## Operations of service.go -/

/-- The constructor `NewMarketDataService`. -/
def NewMarketDataService : MarketDataService :=
  { sources := [], dataChannel := makeChan 1000, subscribers := [], chans := [] }

/-- The method `Subscribe`: allocate a channel of capacity 100, append it to the
slice registered under `symbol`, and return it. -/
def Subscribe (mds : MarketDataService) (symbol : String) : ChanRef × MarketDataService :=
  let ch := mds.chans.length
  (ch, { mds with
          chans := mds.chans ++ [makeChan 100],
          subscribers := mapSet mds.subscribers symbol ((mapGet mds.subscribers symbol).append ch) })

/-- The method `AddSource`. -/
def AddSource (mds : MarketDataService) (name : String) (source : DataSource) :
    MarketDataService :=
  { mds with sources := mapSet mds.sources name source }

/-- One iteration of the inner loop of `distributeData`: the non-blocking send of
`data` to the subscriber channel `subs`. -/
def deliver (data : MarketData) (chans : List Chan) (subs : ChanRef) : List Chan :=
  match chans[subs]? with
  | some c => chans.set subs (trySend c data).1
  | none => chans

/-- The body of the outer loop of `distributeData` for one record `data` taken
from the ingress channel (the fan-out step). -/
def fanOut (mds : MarketDataService) (data : MarketData) : MarketDataService :=
  { mds with chans := (mapGet mds.subscribers data.Symbol).elems.foldl (deliver data) mds.chans }

/-- The loop of `distributeData` run over the records `rs` it receives, in order. -/
def distributeData (mds : MarketDataService) (rs : List MarketData) : MarketDataService :=
  rs.foldl fanOut mds

/-- The queue behind a reference (used to read results off a state). -/
def queue (mds : MarketDataService) (ch : ChanRef) : Option Chan := mds.chans[ch]?

/-! ## Well-formedness of the heap references -/

/-- All channel references stored in the registry. -/
def allRefs (m : SubscriberMap) : List ChanRef := (m.map (fun kv => kv.2.elems)).flatten

/-- Every registered reference points into the heap. -/
def RefsInHeap (mds : MarketDataService) : Prop :=
  ∀ r ∈ allRefs mds.subscribers, r < mds.chans.length

/-- No channel is registered twice, neither under one symbol nor under two. -/
def NoAlias (mds : MarketDataService) : Prop :=
  (allRefs mds.subscribers).Nodup

/-- Every allocated queue has the capacity 100 given by `Subscribe` and holds
no more records than that. -/
def Bounded (mds : MarketDataService) : Prop :=
  ∀ c ∈ mds.chans, c.cap = 100 ∧ c.buf.length ≤ c.cap

instance (mds : MarketDataService) : Decidable (RefsInHeap mds) := by
  unfold RefsInHeap; infer_instance

instance (mds : MarketDataService) : Decidable (NoAlias mds) := by
  unfold NoAlias; infer_instance

instance (mds : MarketDataService) : Decidable (Bounded mds) := by
  unfold Bounded; infer_instance

/-- Every symbol key of the registry is mapped to a non-nil slice. -/
def NonNil (mds : MarketDataService) : Prop :=
  ∀ kv ∈ mds.subscribers, kv.2 ≠ none

instance (mds : MarketDataService) : Decidable (NonNil mds) := by
  unfold NonNil; infer_instance

/-! ## The hub as a transition system

The calls and loop iterations that act on the registry and on the subscriber
queues, taken one at a time.  `Subscribe` and a fan-out step exclude each other
through `subscribersMux`.  A reader is not under that lock, but its receive
touches one queue only and a fan-out step sends to each queue at most once, so
a receive that falls inside a fan-out step acts like one just before or just
after it. -/

/-- One atomic action on the hub. -/
inductive Action where
  /-- A call `Subscribe(symbol)`. -/
  | subscribe (symbol : String)
  /-- A call `AddSource(name, source)`. -/
  | addSource (name : String) (source : DataSource)
  /-- One fan-out step of `distributeData` for the record `data`. -/
  | dispatch (data : MarketData)
  /-- The holder of the queue `ch` receives one record from it. -/
  | read (ch : ChanRef)
  deriving DecidableEq, Repr

/-- The holder of the queue `ch` receives from it: the new state and what was
received (nothing when the queue is empty, where the reader just waits). -/
def readQueue (mds : MarketDataService) (ch : ChanRef) :
    MarketDataService × List (ChanRef × MarketData) :=
  match mds.chans[ch]? with
  | some c =>
    match recv c with
    | some (d, c') => ({ mds with chans := mds.chans.set ch c' }, [(ch, d)])
    | none => (mds, [])
  | none => (mds, [])

/-- One action: the new state and the records handed to readers, tagged with the
queue they were read from. -/
def step (mds : MarketDataService) : Action → MarketDataService × List (ChanRef × MarketData)
  | .subscribe symbol => ((Subscribe mds symbol).2, [])
  | .addSource name source => (AddSource mds name source, [])
  | .dispatch data => (fanOut mds data, [])
  | .read ch => readQueue mds ch

/-- A sequence of actions, with all records handed to readers in order. -/
def run : List Action → MarketDataService → MarketDataService × List (ChanRef × MarketData)
  | [], mds => (mds, [])
  | a :: rest, mds =>
    ((run rest (step mds a).1).1, (step mds a).2 ++ (run rest (step mds a).1).2)

/-- The records dispatched by the fan-out loop in a sequence of actions. -/
def dispatched : List Action → List MarketData
  | [] => []
  | .dispatch d :: rest => d :: dispatched rest
  | _ :: rest => dispatched rest

/-- The records the reader of queue `q` has received, in order. -/
def received (q : ChanRef) (out : List (ChanRef × MarketData)) : List MarketData :=
  (out.filter (fun p => p.1 = q)).map Prod.snd

/-- The buffered records of queue `q` (empty when `q` is not allocated). -/
def buffered (mds : MarketDataService) (q : ChanRef) : List MarketData :=
  match queue mds q with
  | some c => c.buf
  | none => []

/-! ## Ingestion and the whole pipeline -/

/-- A goroutine running `consumeSource(source)`: the loop variable `data` while
a record has been received from the stream and not yet sent on, and the records
of `source.Stream()` still to come. -/
structure Ingest where
  data : Option MarketData
  stream : List MarketData
  deriving DecidableEq, Repr

/-- The statement `go mds.consumeSource(source)`: the loop at its start. -/
def consumeSource (source : DataSource) : Ingest := { data := none, stream := source.stream }

/-- The loop head `for data := range source.Stream()`: receive the next record
of the stream (nothing happens while the loop still holds a record, or when the
stream has no record). -/
def Ingest.receive (g : Ingest) : Ingest :=
  match g.data, g.stream with
  | none, d :: rest => { data := some d, stream := rest }
  | _, _ => g

/-- The loop body `mds.dataChannel <- data`: a blocking send, which goes through
when the ingress channel has room and otherwise leaves the loop waiting. -/
def Ingest.forward (g : Ingest) (c : Chan) : Ingest × Chan :=
  match g.data with
  | some d =>
    if c.buf.length < c.cap then ({ g with data := none }, { c with buf := c.buf ++ [d] })
    else (g, c)
  | none => (g, c)

/-- The records a loop has still to forward, in order. -/
def Ingest.remaining (g : Ingest) : List MarketData := g.data.toList ++ g.stream

/-- The running service with two sources: the two ingestion loops and the hub
(whose `dataChannel` the loops send on and `distributeData` receives from). -/
structure Pipeline where
  loop1 : Ingest
  loop2 : Ingest
  mds : MarketDataService
  deriving DecidableEq, Repr

/-- One atomic move of one goroutine or caller of the running service. -/
inductive Event where
  /-- The loop of the first source receives from its stream. -/
  | receive1
  /-- The loop of the first source sends its record to the ingress channel. -/
  | forward1
  /-- The loop of the second source receives from its stream. -/
  | receive2
  /-- The loop of the second source sends its record to the ingress channel. -/
  | forward2
  /-- The loop of `distributeData` receives the next record of the ingress channel
  and runs the fan-out step on it. -/
  | dispatch
  /-- A call `Subscribe(symbol)`. -/
  | subscribe (symbol : String)
  /-- The holder of the queue `ch` receives one record from it. -/
  | read (ch : ChanRef)
  deriving DecidableEq, Repr

/-- One event; an event whose goroutine cannot move (nothing to receive, no room
to send) leaves the state as it is.  The records handed to readers are returned
as in `step`. -/
def Pipeline.step (p : Pipeline) : Event → Pipeline × List (ChanRef × MarketData)
  | .receive1 => ({ p with loop1 := p.loop1.receive }, [])
  | .forward1 =>
    ({ p with loop1 := (p.loop1.forward p.mds.dataChannel).1,
              mds := { p.mds with dataChannel := (p.loop1.forward p.mds.dataChannel).2 } }, [])
  | .receive2 => ({ p with loop2 := p.loop2.receive }, [])
  | .forward2 =>
    ({ p with loop2 := (p.loop2.forward p.mds.dataChannel).1,
              mds := { p.mds with dataChannel := (p.loop2.forward p.mds.dataChannel).2 } }, [])
  | .dispatch =>
    match recv p.mds.dataChannel with
    | some (d, c) => ({ p with mds := fanOut { p.mds with dataChannel := c } d }, [])
    | none => (p, [])
  | .subscribe symbol => ({ p with mds := (Subscribe p.mds symbol).2 }, [])
  | .read ch => ({ p with mds := (readQueue p.mds ch).1 }, (readQueue p.mds ch).2)

/-- A schedule of events, with all records handed to readers in order. -/
def Pipeline.exec : List Event → Pipeline → Pipeline × List (ChanRef × MarketData)
  | [], p => (p, [])
  | ev :: rest, p =>
    ((Pipeline.exec rest (p.step ev).1).1, (p.step ev).2 ++ (Pipeline.exec rest (p.step ev).1).2)

/-- The record that the loop of `distributeData` receives from the ingress
channel at an event: the oldest buffered one at a `dispatch`, none otherwise. -/
def Pipeline.taken (p : Pipeline) : Event → List MarketData
  | .dispatch =>
    match recv p.mds.dataChannel with
    | some (d, _) => [d]
    | none => []
  | _ => []

/-- The records that the loop of `distributeData` receives from the ingress
channel along a schedule, in order. -/
def Pipeline.dispatchedBy : List Event → Pipeline → List MarketData
  | [], _ => []
  | ev :: rest, p => p.taken ev ++ Pipeline.dispatchedBy rest (p.step ev).1

/-- The schedule in which the first loop forwards `n1` records, each dispatched
right after it was forwarded, and then the second loop forwards `n2` records
likewise. -/
def drainSchedule (n1 n2 : Nat) : List Event :=
  (List.replicate n1 [Event.receive1, Event.forward1, Event.dispatch]).flatten ++
    (List.replicate n2 [Event.receive2, Event.forward2, Event.dispatch]).flatten

/-- The service right after `Start` has launched the loops for two sources. -/
def startPipeline (mds : MarketDataService) (s1 s2 : DataSource) : Pipeline :=
  { loop1 := consumeSource s1, loop2 := consumeSource s2, mds := mds }

/-- The list `m` merges `a` and `b`: it takes every record of either, each in
its own order. -/
inductive Interleave : List MarketData → List MarketData → List MarketData → Prop where
  | nil : Interleave [] [] []
  | left (d : MarketData) {a b m : List MarketData} :
      Interleave a b m → Interleave (d :: a) b (d :: m)
  | right (d : MarketData) {a b m : List MarketData} :
      Interleave a b m → Interleave a (d :: b) (d :: m)

/-- The records `e` of symbol `S` come, in order, from the buffered ingress
records `dc` first and then from a merge of the two sources, each in its order. -/
def Ordered (S : String) (dc r1 r2 e : List MarketData) : Prop :=
  ∃ e0 e1 e2 m, e = e0 ++ m ∧ e0.Sublist (dc.filter (fun r => r.Symbol = S)) ∧
    e1.Sublist (r1.filter (fun r => r.Symbol = S)) ∧
    e2.Sublist (r2.filter (fun r => r.Symbol = S)) ∧ Interleave e1 e2 m

/-! ## Start -/

/-- What `Start` does to its surroundings: calls on the sources and goroutines
started.  (`disconnect` is the call `source.Disconnect()` of the interface.) -/
inductive Effect where
  /-- A call `source.Connect()` on the source registered as `name`, with the
  error it returned (none for nil). -/
  | connect (name : String) (err : Option String)
  /-- A call `source.Disconnect()`. -/
  | disconnect (name : String)
  /-- The statement `go mds.consumeSource(source)`. -/
  | goConsumeSource (name : String)
  /-- The statement `go mds.distributeData()`. -/
  | goDistributeData
  deriving DecidableEq, Repr

/-- The method `Start`, on the entries of `mds.sources` in the order `visit` in
which the `range` loop over the map meets them (Go leaves that order open):
the error returned and the effects, in order. -/
def Start : List (String × DataSource) → Option String × List Effect
  | [] => (none, [.goDistributeData])
  | (name, source) :: rest =>
    match source.connectErr with
    | some err => (some err, [.connect name (some err)])
    | none => ((Start rest).1, .connect name none :: .goConsumeSource name :: (Start rest).2)

/-- Whether the source `name` is connected after the effects: its last
`Connect` returned nil and no `Disconnect` followed. -/
def connectedAfter (name : String) (effs : List Effect) : Bool :=
  effs.foldl (fun b e =>
    if e = .connect name none then true else if e = .disconnect name then false else b) false

/-- The sources for which an ingestion loop `consumeSource` was started. -/
def loopsStarted : List Effect → List String
  | [] => []
  | .goConsumeSource name :: rest => name :: loopsStarted rest
  | _ :: rest => loopsStarted rest

/-- No source is left connected and no ingestion loop is left on a connected
source. -/
def rolledBack (effs : List Effect) : Bool :=
  effs.all (fun e =>
    match e with
    | .connect name none => !connectedAfter name effs
    | .goConsumeSource name => !connectedAfter name effs
    | _ => true)

/-! ## The polling adapter (yahoo.go) -/

/-- The constant `yahooFinanceBaseURL` up to its verb. -/
def yahooFinanceBaseURL : String := "https://query1.finance.yahoo.com/v7/finance/quote?symbols="

/-- One element of `result.QuoteResponse.Result`. -/
structure Quote where
  Symbol : String
  Price : Nat
  Volume : Int
  deriving DecidableEq, Repr

/-- The record `marketData` built from a quote in the send loop of
`fetchRealtimeData`. -/
def Quote.toMarketData (quote : Quote) : MarketData :=
  { Symbol := quote.Symbol, Price := quote.Price, Volume := quote.Volume }

/-- The channel `dataStream` of the adapter: its capacity, the records buffered
in it (oldest first), and whether it has been closed. -/
structure Stream where
  cap : Nat
  buf : List MarketData
  closed : Bool
  deriving DecidableEq, Repr

/-- The struct `YahooFinanceDataSource` (the HTTP client is the parameter `get`
of the fetch cycle). -/
structure YahooFinanceDataSource where
  dataStream : Stream
  symbols : List String
  deriving DecidableEq, Repr

/-- The constructor `NewYahooFinanceDataSource`, with
`make(chan marketdata.MarketData, 100)`. -/
def NewYahooFinanceDataSource (symbols : List String) : YahooFinanceDataSource :=
  { dataStream := { cap := 100, buf := [], closed := false }, symbols := symbols }

/-- The method `Disconnect` of the adapter: `close(yf.dataStream)`, which panics
on a channel that is already closed. -/
def YahooFinanceDataSource.Disconnect (yf : YahooFinanceDataSource) :
    Except String YahooFinanceDataSource :=
  if yf.dataStream.closed then .error "close of closed channel"
  else .ok { yf with dataStream := { yf.dataStream with closed := true } }

/-- How one statement `yf.dataStream <- marketData` fares. -/
inductive SendOutcome where
  /-- The record went into the buffer. -/
  | sent (s : Stream)
  /-- The buffer is full: the sender waits. -/
  | blocked
  /-- The channel is closed: the send panics. -/
  | panic
  deriving DecidableEq, Repr

/-- The statement `yf.dataStream <- marketData` on the buffered channel. -/
def Stream.send (s : Stream) (d : MarketData) : SendOutcome :=
  if s.closed then .panic
  else if s.buf.length < s.cap then .sent { s with buf := s.buf ++ [d] }
  else .blocked

/-- A receive by the reader of the stream, when a record is buffered. -/
def Stream.recv (s : Stream) : Option (MarketData × Stream) :=
  match s.buf with
  | [] => none
  | d :: rest => some (d, { s with buf := rest })

/-- Where a fetch cycle stands when it can go no further by itself. -/
inductive Fetch where
  /-- The method has returned; `printed` are the lines it printed. -/
  | returned (yf : YahooFinanceDataSource) (printed : List String)
  /-- The cycle waits in the send of the first quote of `pending`, the buffer
  being full; the quotes of `pending` are still to be sent. -/
  | blocked (yf : YahooFinanceDataSource) (pending : List Quote)
  /-- The cycle has panicked. -/
  | panicked (msg : String)
  deriving DecidableEq, Repr

/-- The loop `for _, quote := range result.QuoteResponse.Result` of
`fetchRealtimeData`, run until it ends, waits or panics.  A cycle that waits
with `pending` goes on as `sendQuotes pending` once the reader has received. -/
def sendQuotes : List Quote → YahooFinanceDataSource → Fetch
  | [], yf => .returned yf []
  | quote :: rest, yf =>
    match yf.dataStream.send quote.toMarketData with
    | .sent s => sendQuotes rest { yf with dataStream := s }
    | .blocked => .blocked yf (quote :: rest)
    | .panic => .panicked "send on closed channel"

/-- The method `fetchRealtimeData`.  `get` is `yf.client.Get` (the response body
or an error), `decode` is the JSON decoding of a body into the quote list. -/
def YahooFinanceDataSource.fetchRealtimeData (yf : YahooFinanceDataSource)
    (get : String → Except String String) (decode : String → Except String (List Quote)) :
    Fetch :=
  let symbolString := ",".intercalate yf.symbols
  let url := yahooFinanceBaseURL ++ symbolString
  match get url with
  | .error err => .returned yf ["Error fetching data: " ++ err ++ "\n"]
  | .ok body =>
    match decode body with
    | .error err => .returned yf ["Error decoding response: " ++ err ++ "\n"]
    | .ok quotes => sendQuotes quotes yf

/-- A fetch cycle inside its send loop: the adapter and the quotes still to be
sent, the first of them being the one the loop is at. -/
structure Sending where
  yf : YahooFinanceDataSource
  pending : List Quote
  deriving DecidableEq, Repr

/-- One move of the send loop or of the reader of the stream. -/
inductive Move where
  /-- The loop runs its statement `yf.dataStream <- marketData` for the next quote. -/
  | send
  /-- The reader of the stream receives one record. -/
  | receive
  deriving DecidableEq, Repr

/-- One move: the new state and the record handed to the reader, or `none` when
the send panics.  A send that finds the buffer full, and a receive that finds it
empty, wait: the state stays as it is. -/
def Sending.step (c : Sending) : Move → Option (Sending × List MarketData)
  | .send =>
    match c.pending with
    | [] => some (c, [])
    | quote :: rest =>
      match c.yf.dataStream.send quote.toMarketData with
      | .sent s => some ({ yf := { c.yf with dataStream := s }, pending := rest }, [])
      | .blocked => some (c, [])
      | .panic => none
  | .receive =>
    match c.yf.dataStream.recv with
    | some (d, s) => some ({ c with yf := { c.yf with dataStream := s } }, [d])
    | none => some (c, [])

/-- A schedule of moves, with the records handed to the reader in order. -/
def Sending.run : List Move → Sending → Option (Sending × List MarketData)
  | [], c => some (c, [])
  | mv :: rest, c =>
    match c.step mv with
    | none => none
    | some (c1, out1) =>
      match Sending.run rest c1 with
      | none => none
      | some (c2, out2) => some (c2, out1 ++ out2)

/-- The reader of the stream receives one record (nothing when none is
buffered). -/
def YahooFinanceDataSource.readerReceives (yf : YahooFinanceDataSource) :
    YahooFinanceDataSource :=
  match yf.dataStream.recv with
  | some (_, s) => { yf with dataStream := s }
  | none => yf

/-! ## Sample data -/

/-- A sample record for the symbol AAPL. -/
def aapl : MarketData := { Symbol := "AAPL", Price := 4640123456789012345, Volume := 300 }

/-- A sample record for the symbol MSFT. -/
def msft : MarketData := { Symbol := "MSFT", Price := 4645678901234567890, Volume := 12 }

/-- A hub with two subscribers to AAPL (queues 0 and 2) and one to MSFT (queue 1). -/
def sampleHub : MarketDataService :=
  (Subscribe (Subscribe (Subscribe NewMarketDataService "AAPL").2 "MSFT").2 "AAPL").2

/-- The hub `sampleHub` after 100 AAPL records were dispatched and the reader of
queue 2 has received one: queue 0, first in the AAPL subscriber list, is full
and queue 2, after it in the list, has room for one record. -/
def fullFirstHub : MarketDataService :=
  (run (List.replicate 100 (.dispatch aapl) ++ [.read 2]) sampleHub).1

/-- One more AAPL record, distinct from `aapl`. -/
def aaplNext : MarketData := { Symbol := "AAPL", Price := 4640123456789099999, Volume := 50 }

/-- A source whose `Connect` succeeds. -/
def goodSource : DataSource := { connectErr := none, stream := [aapl, msft] }

/-- A source whose `Connect` fails. -/
def badSource : DataSource := { connectErr := some "connection refused", stream := [] }

/-- A hub with these two sources registered. -/
def twoSourceHub : MarketDataService :=
  AddSource (AddSource NewMarketDataService "good" goodSource) "bad" badSource

/-- A first source with records of both symbols. -/
def feedOne : DataSource :=
  { connectErr := none, stream := [aapl, msft, { Symbol := "AAPL", Price := 1, Volume := 1 }] }

/-- A second source with two AAPL records. -/
def feedTwo : DataSource :=
  { connectErr := none,
    stream := [{ Symbol := "AAPL", Price := 2, Volume := 2 },
               { Symbol := "AAPL", Price := 3, Volume := 3 }] }

/-- A schedule that lets the two loops, the fan-out loop and a reader take turns. -/
def sampleSchedule : List Event :=
  [.receive2, .receive1, .forward2, .forward1, .dispatch, .receive2, .forward2, .dispatch,
   .read 0, .dispatch, .receive1, .forward1, .receive1, .forward1, .dispatch, .dispatch,
   .dispatch]

/-- An adapter whose stream holds 99 records that nobody has received yet. -/
def nearlyFullAdapter : YahooFinanceDataSource :=
  { dataStream := { cap := 100, buf := List.replicate 99 aapl, closed := false },
    symbols := ["AAPL", "MSFT"] }

/-- The adapter `nearlyFullAdapter` after one more AAPL record was sent: its
stream is full. -/
def fullAdapter : YahooFinanceDataSource :=
  { dataStream := { cap := 100, buf := List.replicate 99 aapl ++ [aapl], closed := false },
    symbols := ["AAPL", "MSFT"] }

/-- Two quotes as decoded from a response. -/
def sampleQuotes : List Quote :=
  [{ Symbol := "AAPL", Price := 4640123456789012345, Volume := 300 },
   { Symbol := "MSFT", Price := 4645678901234567890, Volume := 12 }]

/-! ## Lemmas on the heap and the registry -/

theorem deliver_length (d : MarketData) (chans : List Chan) (r : ChanRef) :
    (deliver d chans r).length = chans.length := by
  unfold deliver
  split <;> simp

theorem deliver_get_self (d : MarketData) (chans : List Chan) (r : ChanRef) :
    (deliver d chans r)[r]? = (chans[r]?).map (fun c => (trySend c d).1) := by
  unfold deliver
  cases h : chans[r]? with
  | none => simp [h]
  | some c =>
    have hlt : r < chans.length := by
      by_contra hge
      have := List.getElem?_eq_none (Nat.le_of_not_lt hge)
      simp [this] at h
    simp [List.getElem?_set, hlt]

theorem deliver_get_other (d : MarketData) (chans : List Chan) (r i : ChanRef) (h : i ≠ r) :
    (deliver d chans r)[i]? = chans[i]? := by
  unfold deliver
  cases hc : chans[r]? with
  | none => simp
  | some c => simp [List.getElem?_set, Ne.symm h]

theorem foldl_deliver_length (d : MarketData) (l : List ChanRef) (chans : List Chan) :
    (l.foldl (deliver d) chans).length = chans.length := by
  induction l generalizing chans with
  | nil => rfl
  | cons r l ih => simp [List.foldl, ih, deliver_length]

theorem foldl_deliver_get_not_mem (d : MarketData) (l : List ChanRef) (chans : List Chan)
    (i : ChanRef) (h : i ∉ l) : (l.foldl (deliver d) chans)[i]? = chans[i]? := by
  induction l generalizing chans with
  | nil => rfl
  | cons r l ih =>
    simp only [List.mem_cons, not_or] at h
    simp only [List.foldl]
    rw [ih _ h.2, deliver_get_other d chans r i h.1]

theorem foldl_deliver_get_mem (d : MarketData) (l : List ChanRef) (chans : List Chan)
    (i : ChanRef) (h : i ∈ l) (hnd : l.Nodup) :
    (l.foldl (deliver d) chans)[i]? = (chans[i]?).map (fun c => (trySend c d).1) := by
  induction l generalizing chans with
  | nil => simp at h
  | cons r l ih =>
    simp only [List.nodup_cons] at hnd
    simp only [List.foldl]
    rcases List.mem_cons.1 h with rfl | hmem
    · rw [foldl_deliver_get_not_mem d l _ i hnd.1, deliver_get_self]
    · have hne : i ≠ r := by
        rintro rfl
        exact hnd.1 hmem
      rw [ih _ hmem hnd.2, deliver_get_other d chans r i hne]

theorem mapGet_mapSet_self (m : SubscriberMap) (k : String) (v : Slice) :
    mapGet (mapSet m k v) k = v := by
  induction m with
  | nil => simp [mapSet, mapGet]
  | cons kv rest ih =>
    obtain ⟨k0, v0⟩ := kv
    by_cases h : k0 = k
    · simp [mapSet, mapGet, h]
    · simp [mapSet, mapGet, h, ih]

theorem mapGet_mapSet_other (m : SubscriberMap) (k k' : String) (v : Slice) (hne : k' ≠ k) :
    mapGet (mapSet m k v) k' = mapGet m k' := by
  induction m with
  | nil => simp [mapSet, mapGet, Ne.symm hne]
  | cons kv rest ih =>
    obtain ⟨k0, v0⟩ := kv
    by_cases h : k0 = k
    · subst h
      simp [mapSet, mapGet, Ne.symm hne]
    · by_cases h' : k0 = k'
      · subst h'
        simp [mapSet, mapGet, h]
      · simp [mapSet, mapGet, h, h', ih]

theorem allRefs_cons (k : String) (v : Slice) (rest : SubscriberMap) :
    allRefs ((k, v) :: rest) = v.elems ++ allRefs rest := by
  simp [allRefs]

theorem mem_allRefs_of_mem_mapGet (m : SubscriberMap) (k : String) (r : ChanRef)
    (h : r ∈ (mapGet m k).elems) : r ∈ allRefs m := by
  induction m with
  | nil => simp [mapGet, Slice.elems] at h
  | cons kv rest ih =>
    obtain ⟨k0, v0⟩ := kv
    rw [allRefs_cons]
    by_cases hk : k0 = k
    · simp only [mapGet, hk, if_true] at h
      exact List.mem_append_left _ h
    · simp only [mapGet, hk, if_false] at h
      exact List.mem_append_right _ (ih h)

theorem nodup_mapGet (m : SubscriberMap) (k : String) (h : (allRefs m).Nodup) :
    (mapGet m k).elems.Nodup := by
  induction m with
  | nil => simp [mapGet, Slice.elems]
  | cons kv rest ih =>
    obtain ⟨k0, v0⟩ := kv
    rw [allRefs_cons] at h
    by_cases hk : k0 = k
    · simp only [mapGet, hk, if_true]
      exact (List.nodup_append.1 h).1
    · simp only [mapGet, hk, if_false]
      exact ih (List.nodup_append.1 h).2.1

theorem disjoint_mapGet (m : SubscriberMap) (k k' : String) (r : ChanRef)
    (h : (allRefs m).Nodup) (hne : k ≠ k') (hr : r ∈ (mapGet m k).elems) :
    r ∉ (mapGet m k').elems := by
  induction m with
  | nil => simp [mapGet, Slice.elems] at hr
  | cons kv rest ih =>
    obtain ⟨k0, v0⟩ := kv
    rw [allRefs_cons] at h
    have hdis := (List.nodup_append.1 h).2.2
    by_cases hk : k0 = k
    · have hk' : ¬ k0 = k' := fun e => hne (hk.symm.trans e)
      simp only [mapGet, hk, if_true] at hr
      simp only [mapGet, hk', if_false]
      intro hr'
      exact hdis hr (mem_allRefs_of_mem_mapGet rest k' r hr')
    · simp only [mapGet, hk, if_false] at hr
      by_cases hk' : k0 = k'
      · simp only [mapGet, hk', if_true]
        intro hr'
        exact hdis hr' (mem_allRefs_of_mem_mapGet rest k r hr)
      · simp only [mapGet, hk', if_false]
        exact ih (List.nodup_append.1 h).2.1 hr

theorem allRefs_mapSet_append (m : SubscriberMap) (k : String) (ch : ChanRef) :
    (allRefs (mapSet m k ((mapGet m k).append ch))).Perm (ch :: allRefs m) := by
  induction m with
  | nil => simp [mapSet, mapGet, allRefs, Slice.append, Slice.elems]
  | cons kv rest ih =>
    obtain ⟨k0, v0⟩ := kv
    by_cases hk : k0 = k
    · simp only [mapSet, mapGet, hk, if_true, allRefs_cons, Slice.append, Slice.elems]
      rw [List.append_assoc]
      exact List.perm_middle
    · simp only [mapSet, mapGet, hk, if_false, allRefs_cons]
      exact (List.Perm.append_left _ ih).trans List.perm_middle

theorem mem_foldl_deliver (P : Chan → Prop) (d : MarketData)
    (hP : ∀ c, P c → P (trySend c d).1) (l : List ChanRef) (chans : List Chan)
    (h : ∀ c ∈ chans, P c) : ∀ c ∈ l.foldl (deliver d) chans, P c := by
  induction l generalizing chans with
  | nil => simpa using h
  | cons r l ih =>
    simp only [List.foldl]
    apply ih
    intro c hc
    unfold deliver at hc
    cases hr : chans[r]? with
    | none =>
      rw [hr] at hc
      exact h c hc
    | some c0 =>
      rw [hr] at hc
      rcases List.mem_or_eq_of_mem_set hc with hmem | rfl
      · exact h c hmem
      · exact hP c0 (h c0 (List.mem_iff_getElem?.2 ⟨r, hr⟩))

theorem trySend_bounded (c : Chan) (d : MarketData)
    (h : c.cap = 100 ∧ c.buf.length ≤ c.cap) :
    (trySend c d).1.cap = 100 ∧ (trySend c d).1.buf.length ≤ (trySend c d).1.cap := by
  unfold trySend
  split
  · simp only [List.length_append, List.length_singleton]
    exact ⟨h.1, by omega⟩
  · exact h

/-! ## Preservation of the invariants -/

theorem Subscribe_refsInHeap (mds : MarketDataService) (symbol : String)
    (h : RefsInHeap mds) : RefsInHeap (Subscribe mds symbol).2 := by
  unfold RefsInHeap
  intro r hr
  simp only [Subscribe, List.length_append, List.length_singleton] at hr ⊢
  have := (allRefs_mapSet_append mds.subscribers symbol mds.chans.length).mem_iff.1 hr
  rcases List.mem_cons.1 this with rfl | hmem
  · exact Nat.lt_succ_self _
  · exact Nat.lt_succ_of_lt (h r hmem)

theorem Subscribe_noAlias (mds : MarketDataService) (symbol : String)
    (h : RefsInHeap mds) (hna : NoAlias mds) : NoAlias (Subscribe mds symbol).2 := by
  unfold NoAlias
  simp only [Subscribe]
  rw [(allRefs_mapSet_append mds.subscribers symbol mds.chans.length).nodup_iff]
  refine List.nodup_cons.2 ⟨?_, hna⟩
  intro hmem
  exact Nat.lt_irrefl _ (h _ hmem)

theorem Subscribe_bounded (mds : MarketDataService) (symbol : String)
    (h : Bounded mds) : Bounded (Subscribe mds symbol).2 := by
  intro c hc
  simp only [Subscribe, List.mem_append, List.mem_singleton] at hc
  rcases hc with hc | rfl
  · exact h c hc
  · simp [makeChan]

theorem mem_mapSet {β : Type} (m : List (String × β)) (k : String) (v : β) (kv : String × β)
    (h : kv ∈ mapSet m k v) : kv ∈ m ∨ kv = (k, v) := by
  induction m with
  | nil =>
    simp only [mapSet, List.mem_singleton] at h
    exact Or.inr h
  | cons e rest ih =>
    obtain ⟨k0, v0⟩ := e
    by_cases hk : k0 = k
    · simp only [mapSet, hk, if_true, List.mem_cons] at h
      rcases h with h | h
      · exact Or.inr h
      · exact Or.inl (List.mem_cons_of_mem _ h)
    · simp only [mapSet, hk, if_false, List.mem_cons] at h
      rcases h with h | h
      · exact Or.inl (h ▸ List.mem_cons_self _ _)
      · rcases ih h with h' | h'
        · exact Or.inl (List.mem_cons_of_mem _ h')
        · exact Or.inr h'

theorem Subscribe_nonNil (mds : MarketDataService) (symbol : String)
    (h : NonNil mds) : NonNil (Subscribe mds symbol).2 := by
  intro kv hkv
  simp only [Subscribe] at hkv
  rcases mem_mapSet _ _ _ _ hkv with hmem | rfl
  · exact h kv hmem
  · simp [Slice.append]

theorem fanOut_subscribers (mds : MarketDataService) (d : MarketData) :
    (fanOut mds d).subscribers = mds.subscribers := rfl

theorem fanOut_chans_length (mds : MarketDataService) (d : MarketData) :
    (fanOut mds d).chans.length = mds.chans.length := by
  simp [fanOut, foldl_deliver_length]

theorem fanOut_bounded (mds : MarketDataService) (d : MarketData) (h : Bounded mds) :
    Bounded (fanOut mds d) := by
  unfold Bounded fanOut
  exact mem_foldl_deliver (fun c => c.cap = 100 ∧ c.buf.length ≤ c.cap) d
    (fun c hc => trySend_bounded c d hc) _ _ h

theorem readQueue_subscribers (mds : MarketDataService) (ch : ChanRef) :
    (readQueue mds ch).1.subscribers = mds.subscribers := by
  unfold readQueue
  cases mds.chans[ch]? with
  | none => rfl
  | some c =>
    simp only
    cases recv c with
    | none => rfl
    | some p => rfl

theorem readQueue_chans_length (mds : MarketDataService) (ch : ChanRef) :
    (readQueue mds ch).1.chans.length = mds.chans.length := by
  unfold readQueue
  cases mds.chans[ch]? with
  | none => rfl
  | some c =>
    simp only
    cases recv c with
    | none => rfl
    | some p => simp

theorem recv_bounded (c c' : Chan) (d : MarketData) (h : recv c = some (d, c'))
    (hb : c.cap = 100 ∧ c.buf.length ≤ c.cap) : c'.cap = 100 ∧ c'.buf.length ≤ c'.cap := by
  unfold recv at h
  cases hbuf : c.buf with
  | nil => simp [hbuf] at h
  | cons x rest =>
    simp only [hbuf, Option.some.injEq, Prod.mk.injEq] at h
    obtain ⟨_, rfl⟩ := h
    simp only [hbuf, List.length_cons] at hb ⊢
    exact ⟨hb.1, by omega⟩

theorem readQueue_bounded (mds : MarketDataService) (ch : ChanRef) (h : Bounded mds) :
    Bounded (readQueue mds ch).1 := by
  unfold readQueue
  cases hc : mds.chans[ch]? with
  | none => exact h
  | some c =>
    simp only
    cases hr : recv c with
    | none => exact h
    | some p =>
      obtain ⟨d, c'⟩ := p
      intro x hx
      rcases List.mem_or_eq_of_mem_set hx with hmem | rfl
      · exact h x hmem
      · exact recv_bounded c x d hr (h c (List.mem_iff_getElem?.2 ⟨ch, hc⟩))

/-- The invariant of the hub: references are valid and unshared, queues are
bounded, registered slices are non-nil. -/
theorem step_invariant (mds : MarketDataService) (a : Action)
    (h : RefsInHeap mds ∧ NoAlias mds ∧ Bounded mds ∧ NonNil mds) :
    RefsInHeap (step mds a).1 ∧ NoAlias (step mds a).1 ∧ Bounded (step mds a).1 ∧
      NonNil (step mds a).1 := by
  obtain ⟨h1, h2, h3, h4⟩ := h
  cases a with
  | subscribe symbol =>
    exact ⟨Subscribe_refsInHeap mds symbol h1, Subscribe_noAlias mds symbol h1 h2,
      Subscribe_bounded mds symbol h3, Subscribe_nonNil mds symbol h4⟩
  | addSource name source => exact ⟨h1, h2, h3, h4⟩
  | dispatch d =>
    refine ⟨?_, h2, fanOut_bounded mds d h3, h4⟩
    intro r hr
    simp only [step, fanOut_chans_length]
    exact h1 r hr
  | read ch =>
    refine ⟨?_, ?_, readQueue_bounded mds ch h3, ?_⟩
    · intro r hr
      simp only [step, readQueue_chans_length, readQueue_subscribers] at hr ⊢
      exact h1 r hr
    · simp only [NoAlias, step, readQueue_subscribers]
      exact h2
    · simp only [NonNil, step, readQueue_subscribers]
      exact h4

theorem run_invariant (acts : List Action) (mds : MarketDataService)
    (h : RefsInHeap mds ∧ NoAlias mds ∧ Bounded mds ∧ NonNil mds) :
    RefsInHeap (run acts mds).1 ∧ NoAlias (run acts mds).1 ∧ Bounded (run acts mds).1 ∧
      NonNil (run acts mds).1 := by
  induction acts generalizing mds with
  | nil => exact h
  | cons a rest ih => exact ih _ (step_invariant mds a h)

theorem new_invariant :
    RefsInHeap NewMarketDataService ∧ NoAlias NewMarketDataService ∧
      Bounded NewMarketDataService ∧ NonNil NewMarketDataService := by
  refine ⟨?_, ?_, ?_, ?_⟩ <;> decide

theorem elems_append (s : Slice) (c : ChanRef) : (s.append c).elems = s.elems ++ [c] := rfl

theorem mapGet_ne_none_of_mem_keys (m : SubscriberMap) (k : String)
    (h : ∀ kv ∈ m, kv.2 ≠ none) (hk : k ∈ mapKeys m) : mapGet m k ≠ none := by
  induction m with
  | nil => simp [mapKeys] at hk
  | cons e rest ih =>
    obtain ⟨k0, v0⟩ := e
    by_cases hk0 : k0 = k
    · simp only [mapGet, hk0, if_true]
      exact h (k0, v0) (List.mem_cons_self _ _)
    · simp only [mapGet, hk0, if_false]
      apply ih (fun kv hkv => h kv (List.mem_cons_of_mem _ hkv))
      simp only [mapKeys, List.map_cons, List.mem_cons] at hk
      rcases hk with hk | hk
      · exact absurd hk.symm hk0
      · exact hk

theorem mapGet_eq_none_of_not_mem_keys (m : SubscriberMap) (k : String)
    (hk : k ∉ mapKeys m) : mapGet m k = none := by
  induction m with
  | nil => rfl
  | cons e rest ih =>
    obtain ⟨k0, v0⟩ := e
    simp only [mapKeys, List.map_cons, List.mem_cons, not_or] at hk
    simp only [mapGet, Ne.symm hk.1, if_false]
    exact ih hk.2

/-- The queue of a subscriber of the record's symbol after one fan-out step. -/
theorem fanOut_queue_mem (mds : MarketDataService) (d : MarketData) (q : ChanRef)
    (hna : NoAlias mds) (hq : q ∈ (mapGet mds.subscribers d.Symbol).elems) :
    queue (fanOut mds d) q = (queue mds q).map (fun c => (trySend c d).1) := by
  unfold queue fanOut
  exact foldl_deliver_get_mem d _ mds.chans q hq (nodup_mapGet _ _ hna)

/-- The queue of anyone else after one fan-out step. -/
theorem fanOut_queue_not_mem (mds : MarketDataService) (d : MarketData) (q : ChanRef)
    (hq : q ∉ (mapGet mds.subscribers d.Symbol).elems) :
    queue (fanOut mds d) q = queue mds q := by
  unfold queue fanOut
  exact foldl_deliver_get_not_mem d _ mds.chans q hq

theorem fanOut_noAlias (mds : MarketDataService) (d : MarketData) (h : NoAlias mds) :
    NoAlias (fanOut mds d) := h

theorem distributeData_subscribers (mds : MarketDataService) (rs : List MarketData) :
    (distributeData mds rs).subscribers = mds.subscribers := by
  induction rs generalizing mds with
  | nil => rfl
  | cons d rs ih =>
    simp only [distributeData, List.foldl_cons] at ih ⊢
    rw [ih]
    rfl

/-- The queue of a subscriber of S after the fan-out loop has handled `rs`: it
has taken the records of symbol S, in order, for as long as it had room. -/
theorem distributeData_queue (rs : List MarketData) (mds : MarketDataService) (S : String)
    (q : ChanRef) (c : Chan) (hna : NoAlias mds)
    (hq : q ∈ (mapGet mds.subscribers S).elems) (hc : queue mds q = some c) :
    queue (distributeData mds rs) q = some { c with
      buf := c.buf ++ (rs.filter (fun d => d.Symbol = S)).take (c.cap - c.buf.length) } := by
  induction rs generalizing mds c with
  | nil => simp [distributeData, hc]
  | cons d rs ih =>
    have hstep : distributeData mds (d :: rs) = distributeData (fanOut mds d) rs := rfl
    rw [hstep]
    by_cases hd : d.Symbol = S
    · have hq' : q ∈ (mapGet mds.subscribers d.Symbol).elems := by rw [hd]; exact hq
      have hc' := fanOut_queue_mem mds d q hna hq'
      rw [hc] at hc'
      by_cases hroom : c.buf.length < c.cap
      · have hts : (trySend c d).1 = { c with buf := c.buf ++ [d] } := by simp [trySend, hroom]
        rw [Option.map_some', hts] at hc'
        rw [ih (fanOut mds d) _ (fanOut_noAlias mds d hna) hq hc']
        obtain ⟨n, hn⟩ : ∃ n, c.cap - c.buf.length = n + 1 := ⟨c.cap - c.buf.length - 1, by omega⟩
        have hn' : c.cap - (c.buf.length + 1) = n := by omega
        simp [hd, hn, hn']
      · have hts : (trySend c d).1 = c := by simp [trySend, hroom]
        rw [Option.map_some', hts] at hc'
        rw [ih (fanOut mds d) _ (fanOut_noAlias mds d hna) hq hc']
        have hz : c.cap - c.buf.length = 0 := by omega
        simp [hz]
    · have hq' : q ∉ (mapGet mds.subscribers d.Symbol).elems :=
        fun hmem => disjoint_mapGet _ _ _ q hna (Ne.symm hd) hq hmem
      have hc' := fanOut_queue_not_mem mds d q hq'
      rw [hc] at hc'
      rw [ih (fanOut mds d) _ (fanOut_noAlias mds d hna) hq hc']
      simp [hd]

theorem Subscribe_queue_new (mds : MarketDataService) (S : String) :
    queue (Subscribe mds S).2 (Subscribe mds S).1 = some { cap := 100, buf := [] } := by
  simp [queue, Subscribe, makeChan]

theorem Subscribe_mem_new (mds : MarketDataService) (S : String) :
    (Subscribe mds S).1 ∈ (mapGet (Subscribe mds S).2.subscribers S).elems := by
  simp [Subscribe, mapGet_mapSet_self, elems_append]

theorem sendQuotes_open (quotes : List Quote) (yf : YahooFinanceDataSource)
    (h : yf.dataStream.closed = false) :
    sendQuotes quotes yf =
      if quotes.length ≤ yf.dataStream.cap - yf.dataStream.buf.length then
        .returned { yf with dataStream := { yf.dataStream with
          buf := yf.dataStream.buf ++ quotes.map Quote.toMarketData } } []
      else
        .blocked { yf with dataStream := { yf.dataStream with
          buf := yf.dataStream.buf ++
            (quotes.take (yf.dataStream.cap - yf.dataStream.buf.length)).map
              Quote.toMarketData } }
          (quotes.drop (yf.dataStream.cap - yf.dataStream.buf.length)) := by
  induction quotes generalizing yf with
  | nil => simp [sendQuotes]
  | cons quote rest ih =>
    by_cases hroom : yf.dataStream.buf.length < yf.dataStream.cap
    · obtain ⟨n, hn⟩ : ∃ n, yf.dataStream.cap - yf.dataStream.buf.length = n + 1 :=
        ⟨yf.dataStream.cap - yf.dataStream.buf.length - 1, by omega⟩
      have hn' : yf.dataStream.cap - (yf.dataStream.buf.length + 1) = n := by omega
      simp only [sendQuotes, Stream.send, h, Bool.false_eq_true, if_false, hroom, if_true]
      rw [ih _ rfl]
      simp [hn, hn', h]
    · have hz : yf.dataStream.cap - yf.dataStream.buf.length = 0 := by omega
      obtain ⟨⟨cap, buf, closed⟩, symbols⟩ := yf
      simp only at h hroom hz
      subst h
      simp [sendQuotes, Stream.send, hroom, hz]

/-- One move of the send loop or of the reader, on an open stream: nothing
panics, and the records handed to the reader, then the buffered ones, then the
ones still to be sent are what was buffered followed by what was to be sent. -/
theorem Sending.step_conserves (c : Sending) (mv : Move) (h : c.yf.dataStream.closed = false) :
    ∃ c1 out, c.step mv = some (c1, out) ∧ c1.yf.dataStream.closed = false ∧
      c1.yf.symbols = c.yf.symbols ∧ c1.yf.dataStream.cap = c.yf.dataStream.cap ∧
      out ++ c1.yf.dataStream.buf ++ c1.pending.map Quote.toMarketData
        = c.yf.dataStream.buf ++ c.pending.map Quote.toMarketData := by
  obtain ⟨⟨⟨cap, buf, closed⟩, symbols⟩, pending⟩ := c
  simp only at h
  subst h
  cases mv with
  | send =>
    cases pending with
    | nil => exact ⟨_, _, rfl, rfl, rfl, rfl, rfl⟩
    | cons quote rest =>
      by_cases hroom : buf.length < cap
      · exact ⟨⟨⟨⟨cap, buf ++ [quote.toMarketData], false⟩, symbols⟩, rest⟩, [],
          by simp [Sending.step, Stream.send, hroom], rfl, rfl, rfl, by simp⟩
      · exact ⟨⟨⟨⟨cap, buf, false⟩, symbols⟩, quote :: rest⟩, [],
          by simp [Sending.step, Stream.send, hroom], rfl, rfl, rfl, rfl⟩
  | receive =>
    cases buf with
    | nil => exact ⟨_, _, rfl, rfl, rfl, rfl, rfl⟩
    | cons d rest => exact ⟨_, _, rfl, rfl, rfl, rfl, by simp⟩

theorem Sending.run_conserves (moves : List Move) (c : Sending)
    (h : c.yf.dataStream.closed = false) :
    ∃ c1 out, c.run moves = some (c1, out) ∧ c1.yf.dataStream.closed = false ∧
      c1.yf.symbols = c.yf.symbols ∧ c1.yf.dataStream.cap = c.yf.dataStream.cap ∧
      out ++ c1.yf.dataStream.buf ++ c1.pending.map Quote.toMarketData
        = c.yf.dataStream.buf ++ c.pending.map Quote.toMarketData := by
  induction moves generalizing c with
  | nil => exact ⟨c, [], rfl, h, rfl, rfl, rfl⟩
  | cons mv rest ih =>
    obtain ⟨c1, o1, hs, hopen, hsym, hcap, hcons⟩ := c.step_conserves mv h
    obtain ⟨c2, o2, hr, hopen2, hsym2, hcap2, hcons2⟩ := ih c1 hopen
    refine ⟨c2, o1 ++ o2, by simp [Sending.run, hs, hr], hopen2, hsym2.trans hsym,
      hcap2.trans hcap, ?_⟩
    have e2 : o2 ++ (c2.yf.dataStream.buf ++ c2.pending.map Quote.toMarketData)
        = c1.yf.dataStream.buf ++ c1.pending.map Quote.toMarketData := by
      rw [← List.append_assoc]
      exact hcons2
    rw [← hcons]
    simp only [List.append_assoc]
    rw [e2]

theorem Sending.run_send_waiting (n : Nat) (c : Sending)
    (h : c.yf.dataStream.closed = false)
    (hfull : ¬ c.yf.dataStream.buf.length < c.yf.dataStream.cap) :
    c.run (List.replicate n Move.send) = some (c, []) := by
  induction n with
  | zero => rfl
  | succ n ih =>
    have hstep : c.step .send = some (c, []) := by
      cases hp : c.pending with
      | nil => simp [Sending.step, hp]
      | cons quote rest => simp [Sending.step, hp, Stream.send, h, hfull]
    simp [List.replicate_succ, Sending.run, hstep, ih]

/-- The send loop run by itself, as `sendQuotes` does, is the schedule of as many
send moves as there are quotes. -/
theorem sendQuotes_eq_run (pending : List Quote) (yf : YahooFinanceDataSource)
    (h : yf.dataStream.closed = false) :
    ∃ c, Sending.run (List.replicate pending.length Move.send)
        { yf := yf, pending := pending } = some (c, []) ∧
      sendQuotes pending yf
        = if c.pending = [] then .returned c.yf [] else .blocked c.yf c.pending := by
  induction pending generalizing yf with
  | nil => exact ⟨_, rfl, rfl⟩
  | cons quote rest ih =>
    obtain ⟨⟨cap, buf, closed⟩, symbols⟩ := yf
    simp only at h
    subst h
    by_cases hroom : buf.length < cap
    · obtain ⟨c, hc, hq⟩ := ih ⟨⟨cap, buf ++ [quote.toMarketData], false⟩, symbols⟩ rfl
      refine ⟨c, ?_, ?_⟩
      · simp [List.replicate_succ, Sending.run, Sending.step, Stream.send, hroom, hc]
      · simp only [sendQuotes, Stream.send, Bool.false_eq_true, if_false, hroom, if_true]
        exact hq
    · refine ⟨⟨⟨⟨cap, buf, false⟩, symbols⟩, quote :: rest⟩, ?_, ?_⟩
      · exact Sending.run_send_waiting _ _ rfl hroom
      · simp [sendQuotes, Stream.send, hroom]

theorem perm_pair {α : Type} (x y : α) (hne : x ≠ y) (l : List α) (h : l.Perm [x, y]) :
    l = [x, y] ∨ l = [y, x] := by
  have hlen : l.length = 2 := by simpa using h.length_eq
  have hnd : l.Nodup := h.nodup_iff.2 (by simp [hne])
  match l, hlen with
  | [a, b], _ =>
    have ha : a ∈ [x, y] := h.mem_iff.1 (by simp)
    have hb : b ∈ [x, y] := h.mem_iff.1 (by simp)
    have hab : a ≠ b := by
      intro e
      simp [e] at hnd
    simp only [List.mem_cons, List.mem_singleton, List.not_mem_nil, or_false] at ha hb
    rcases ha with rfl | rfl <;> rcases hb with rfl | rfl
    · exact absurd rfl hab
    · exact Or.inl rfl
    · exact Or.inr rfl
    · exact absurd rfl hab

/-! ## What one action does to one subscriber queue -/

theorem received_append (q : ChanRef) (o1 o2 : List (ChanRef × MarketData)) :
    received q (o1 ++ o2) = received q o1 ++ received q o2 := by
  simp [received]

theorem queue_isSome_of_mem (mds : MarketDataService) (S : String) (q : ChanRef)
    (h1 : RefsInHeap mds) (hq : q ∈ (mapGet mds.subscribers S).elems) :
    ∃ c, queue mds q = some c := by
  have hlt : q < mds.chans.length := h1 q (mem_allRefs_of_mem_mapGet _ _ _ hq)
  exact ⟨mds.chans[q], by simp [queue, List.getElem?_eq_getElem hlt]⟩

theorem Subscribe_enqueue (mds : MarketDataService) (symbol S : String) (q : ChanRef)
    (h1 : RefsInHeap mds) (hq : q ∈ (mapGet mds.subscribers S).elems) :
    buffered (Subscribe mds symbol).2 q = buffered mds q ∧
      q ∈ (mapGet (Subscribe mds symbol).2.subscribers S).elems := by
  have hlt : q < mds.chans.length := h1 q (mem_allRefs_of_mem_mapGet _ _ _ hq)
  constructor
  · simp [buffered, queue, Subscribe, List.getElem?_append_left hlt]
  · by_cases hs : S = symbol
    · subst hs
      simp only [Subscribe, mapGet_mapSet_self, elems_append]
      exact List.mem_append_left _ hq
    · simp only [Subscribe, mapGet_mapSet_other _ _ _ _ hs]
      exact hq

theorem fanOut_enqueue (mds : MarketDataService) (d : MarketData) (S : String) (q : ChanRef)
    (h1 : RefsInHeap mds) (h2 : NoAlias mds) (hq : q ∈ (mapGet mds.subscribers S).elems) :
    ∃ e, buffered (fanOut mds d) q = buffered mds q ++ e ∧
      e.Sublist ([d].filter (fun r => r.Symbol = S)) := by
  obtain ⟨c, hc⟩ := queue_isSome_of_mem mds S q h1 hq
  by_cases hd : d.Symbol = S
  · have hq' : q ∈ (mapGet mds.subscribers d.Symbol).elems := by rw [hd]; exact hq
    have hc' := fanOut_queue_mem mds d q h2 hq'
    rw [hc] at hc'
    by_cases hroom : c.buf.length < c.cap
    · refine ⟨[d], ?_, by simp [hd]⟩
      simp [buffered, hc', hc, trySend, hroom]
    · refine ⟨[], ?_, by simp⟩
      simp [buffered, hc', hc, trySend, hroom]
  · have hq' : q ∉ (mapGet mds.subscribers d.Symbol).elems :=
      fun hmem => disjoint_mapGet _ _ _ q h2 (Ne.symm hd) hq hmem
    refine ⟨[], ?_, by simp⟩
    simp [buffered, fanOut_queue_not_mem mds d q hq']

theorem readQueue_enqueue (mds : MarketDataService) (ch q : ChanRef) :
    received q (readQueue mds ch).2 ++ buffered (readQueue mds ch).1 q = buffered mds q := by
  unfold readQueue
  cases hc : mds.chans[ch]? with
  | none => simp [received]
  | some c =>
    simp only
    cases hr : recv c with
    | none => simp [received]
    | some p =>
      obtain ⟨x, c'⟩ := p
      have hlt : ch < mds.chans.length := by
        by_contra hge
        have := List.getElem?_eq_none (Nat.le_of_not_lt hge)
        simp [this] at hc
      unfold recv at hr
      cases hbuf : c.buf with
      | nil => simp [hbuf] at hr
      | cons y rest =>
        simp only [hbuf, Option.some.injEq, Prod.mk.injEq] at hr
        obtain ⟨rfl, rfl⟩ := hr
        by_cases hq : ch = q
        · subst hq
          simp [received, buffered, queue, List.getElem?_set, hlt, hc, hbuf]
        · simp [received, buffered, queue, List.getElem?_set, hq]

/-- One action on the hub, seen from a queue `q` registered under `S`: what the
reader got followed by what is buffered afterwards is what was buffered before
followed by at most the dispatched record, and only if its symbol is `S`. -/
theorem step_enqueue (mds : MarketDataService) (a : Action) (S : String) (q : ChanRef)
    (h1 : RefsInHeap mds) (h2 : NoAlias mds) (hq : q ∈ (mapGet mds.subscribers S).elems) :
    (∃ e, received q (step mds a).2 ++ buffered (step mds a).1 q = buffered mds q ++ e ∧
      e.Sublist ((dispatched [a]).filter (fun r => r.Symbol = S))) ∧
    q ∈ (mapGet (step mds a).1.subscribers S).elems := by
  cases a with
  | subscribe symbol =>
    have h := Subscribe_enqueue mds symbol S q h1 hq
    exact ⟨⟨[], by simp [step, received, h.1], by simp⟩, h.2⟩
  | addSource name source =>
    exact ⟨⟨[], by simp [step, received, AddSource, buffered, queue], by simp⟩, hq⟩
  | dispatch d =>
    obtain ⟨e, he, hsub⟩ := fanOut_enqueue mds d S q h1 h2 hq
    exact ⟨⟨e, by simp [step, received, he], by simpa [dispatched] using hsub⟩, hq⟩
  | read ch =>
    refine ⟨⟨[], ?_, by simp⟩, ?_⟩
    · simp [step, readQueue_enqueue]
    · simp only [step, readQueue_subscribers]
      exact hq

theorem dispatched_cons (a : Action) (rest : List Action) :
    dispatched (a :: rest) = dispatched [a] ++ dispatched rest := by
  cases a <;> simp [dispatched]

/-! ## Order through the pipeline -/

theorem Interleave.prepend_left (x : List MarketData) {a b m : List MarketData}
    (h : Interleave a b m) : Interleave (x ++ a) b (x ++ m) := by
  induction x with
  | nil => exact h
  | cons d x ih => exact Interleave.left d ih

theorem Interleave.prepend_right (x : List MarketData) {a b m : List MarketData}
    (h : Interleave a b m) : Interleave a (x ++ b) (x ++ m) := by
  induction x with
  | nil => exact h
  | cons d x ih => exact Interleave.right d ih

theorem Ordered.nil (S : String) (dc r1 r2 : List MarketData) : Ordered S dc r1 r2 [] :=
  ⟨[], [], [], [], rfl, List.nil_sublist _, List.nil_sublist _, List.nil_sublist _,
    Interleave.nil⟩

theorem Ordered.forward1 (S : String) (d : MarketData) (dc r1 r2 e : List MarketData)
    (h : Ordered S (dc ++ [d]) r1 r2 e) : Ordered S dc (d :: r1) r2 e := by
  obtain ⟨e0, e1, e2, m, he, h0, hs1, hs2, hm⟩ := h
  rw [List.filter_append] at h0
  obtain ⟨x, y, rfl, hx, hy⟩ := List.sublist_append_iff.1 h0
  refine ⟨x, y ++ e1, e2, y ++ m, by rw [he, List.append_assoc], hx, ?_, hs2,
    hm.prepend_left y⟩
  have : (d :: r1).filter (fun r => r.Symbol = S)
      = [d].filter (fun r => r.Symbol = S) ++ r1.filter (fun r => r.Symbol = S) := by
    rw [← List.filter_append]
    rfl
  rw [this]
  exact List.Sublist.append hy hs1

theorem Ordered.forward2 (S : String) (d : MarketData) (dc r1 r2 e : List MarketData)
    (h : Ordered S (dc ++ [d]) r1 r2 e) : Ordered S dc r1 (d :: r2) e := by
  obtain ⟨e0, e1, e2, m, he, h0, hs1, hs2, hm⟩ := h
  rw [List.filter_append] at h0
  obtain ⟨x, y, rfl, hx, hy⟩ := List.sublist_append_iff.1 h0
  refine ⟨x, e1, y ++ e2, y ++ m, by rw [he, List.append_assoc], hx, hs1, ?_,
    hm.prepend_right y⟩
  have : (d :: r2).filter (fun r => r.Symbol = S)
      = [d].filter (fun r => r.Symbol = S) ++ r2.filter (fun r => r.Symbol = S) := by
    rw [← List.filter_append]
    rfl
  rw [this]
  exact List.Sublist.append hy hs2

theorem Ordered.dispatch (S : String) (d : MarketData) (dc r1 r2 ed e : List MarketData)
    (hed : ed.Sublist ([d].filter (fun r => r.Symbol = S)))
    (h : Ordered S dc r1 r2 e) : Ordered S (d :: dc) r1 r2 (ed ++ e) := by
  obtain ⟨e0, e1, e2, m, he, h0, hs1, hs2, hm⟩ := h
  refine ⟨ed ++ e0, e1, e2, m, by rw [he, List.append_assoc], ?_, hs1, hs2, hm⟩
  have : (d :: dc).filter (fun r => r.Symbol = S)
      = [d].filter (fun r => r.Symbol = S) ++ dc.filter (fun r => r.Symbol = S) := by
    rw [← List.filter_append]
    rfl
  rw [this]
  exact List.Sublist.append hed h0

theorem remaining_receive (g : Ingest) : g.receive.remaining = g.remaining := by
  obtain ⟨data, stream⟩ := g
  cases data with
  | some d => rfl
  | none =>
    cases stream with
    | nil => rfl
    | cons d rest => rfl

/-- A send from a loop either moves the head of its remaining records to the
end of the ingress buffer or changes nothing. -/
theorem forward_cases (g : Ingest) (c : Chan) :
    (∃ d, g.remaining = d :: (g.forward c).1.remaining ∧
      (g.forward c).2.buf = c.buf ++ [d]) ∨ g.forward c = (g, c) := by
  obtain ⟨data, stream⟩ := g
  cases data with
  | none => exact Or.inr rfl
  | some d =>
    by_cases hroom : c.buf.length < c.cap
    · left
      exact ⟨d, by simp [Ingest.forward, Ingest.remaining, hroom],
        by simp [Ingest.forward, hroom]⟩
    · right
      simp [Ingest.forward, hroom]

theorem recv_buf (c c' : Chan) (d : MarketData) (h : recv c = some (d, c')) :
    c.buf = d :: c'.buf := by
  unfold recv at h
  cases hbuf : c.buf with
  | nil => simp [hbuf] at h
  | cons x rest =>
    simp only [hbuf, Option.some.injEq, Prod.mk.injEq] at h
    obtain ⟨rfl, rfl⟩ := h
    rfl

theorem readQueue_dataChannel (mds : MarketDataService) (ch : ChanRef) :
    (readQueue mds ch).1.dataChannel = mds.dataChannel := by
  unfold readQueue
  cases mds.chans[ch]? with
  | none => rfl
  | some c =>
    simp only
    cases recv c with
    | none => rfl
    | some p => rfl

theorem readQueue_refsInHeap (mds : MarketDataService) (ch : ChanRef) (h : RefsInHeap mds) :
    RefsInHeap (readQueue mds ch).1 := by
  intro r hr
  rw [readQueue_chans_length]
  rw [readQueue_subscribers] at hr
  exact h r hr

theorem readQueue_noAlias (mds : MarketDataService) (ch : ChanRef) (h : NoAlias mds) :
    NoAlias (readQueue mds ch).1 := by
  unfold NoAlias
  rw [readQueue_subscribers]
  exact h

theorem fanOut_refsInHeap (mds : MarketDataService) (d : MarketData) (h : RefsInHeap mds) :
    RefsInHeap (fanOut mds d) := by
  intro r hr
  rw [fanOut_chans_length]
  exact h r hr

/-- Along every schedule of the pipeline, what passes through a queue registered
under `S` is drawn in order from the ingress buffer and then from a merge of
what the two loops have still to forward. -/
theorem exec_ordered (evs : List Event) (p : Pipeline) (S : String) (q : ChanRef)
    (h1 : RefsInHeap p.mds) (h2 : NoAlias p.mds)
    (hq : q ∈ (mapGet p.mds.subscribers S).elems) :
    ∃ e, received q (p.exec evs).2 ++ buffered (p.exec evs).1.mds q = buffered p.mds q ++ e ∧
      Ordered S p.mds.dataChannel.buf p.loop1.remaining p.loop2.remaining e := by
  induction evs generalizing p with
  | nil => exact ⟨[], by simp [Pipeline.exec, received], Ordered.nil _ _ _ _⟩
  | cons ev rest ih =>
    cases ev with
    | receive1 =>
      obtain ⟨e, he, ho⟩ := ih { p with loop1 := p.loop1.receive } h1 h2 hq
      refine ⟨e, ?_, ?_⟩
      · simpa [Pipeline.exec, Pipeline.step] using he
      · simpa [remaining_receive] using ho
    | receive2 =>
      obtain ⟨e, he, ho⟩ := ih { p with loop2 := p.loop2.receive } h1 h2 hq
      refine ⟨e, ?_, ?_⟩
      · simpa [Pipeline.exec, Pipeline.step] using he
      · simpa [remaining_receive] using ho
    | forward1 =>
      obtain ⟨e, he, ho⟩ := ih (p.step .forward1).1 h1 h2 hq
      refine ⟨e, ?_, ?_⟩
      · simpa [Pipeline.exec] using he
      · rcases forward_cases p.loop1 p.mds.dataChannel with ⟨d, hrem, hbuf⟩ | hsame
        · rw [hrem]
          apply Ordered.forward1
          rw [← hbuf]
          exact ho
        · simpa [Pipeline.step, hsame] using ho
    | forward2 =>
      obtain ⟨e, he, ho⟩ := ih (p.step .forward2).1 h1 h2 hq
      refine ⟨e, ?_, ?_⟩
      · simpa [Pipeline.exec] using he
      · rcases forward_cases p.loop2 p.mds.dataChannel with ⟨d, hrem, hbuf⟩ | hsame
        · rw [hrem]
          apply Ordered.forward2
          rw [← hbuf]
          exact ho
        · simpa [Pipeline.step, hsame] using ho
    | dispatch =>
      cases hr : recv p.mds.dataChannel with
      | none =>
        have hstep : p.step .dispatch = (p, []) := by simp [Pipeline.step, hr]
        obtain ⟨e, he, ho⟩ := ih p h1 h2 hq
        exact ⟨e, by simpa [Pipeline.exec, hstep, received] using he, ho⟩
      | some x =>
        obtain ⟨d, c⟩ := x
        have hstep : p.step .dispatch
            = ({ p with mds := fanOut { p.mds with dataChannel := c } d }, []) := by
          simp [Pipeline.step, hr]
        obtain ⟨ed, hed, hsub⟩ :=
          fanOut_enqueue { p.mds with dataChannel := c } d S q h1 h2 hq
        obtain ⟨e, he, ho⟩ := ih { p with mds := fanOut { p.mds with dataChannel := c } d }
          (fanOut_refsInHeap _ d h1) h2 hq
        refine ⟨ed ++ e, ?_, ?_⟩
        · simp only [Pipeline.exec, hstep, received, List.filter_nil, List.map_nil,
            List.nil_append] at he ⊢
          rw [he, hed, List.append_assoc]
          rfl
        · rw [recv_buf _ _ _ hr]
          exact Ordered.dispatch S d c.buf _ _ ed e hsub ho
    | subscribe symbol =>
      have hs := Subscribe_enqueue p.mds symbol S q h1 hq
      obtain ⟨e, he, ho⟩ := ih { p with mds := (Subscribe p.mds symbol).2 }
        (Subscribe_refsInHeap _ _ h1) (Subscribe_noAlias _ _ h1 h2) hs.2
      refine ⟨e, ?_, ho⟩
      simp only [Pipeline.exec, Pipeline.step, List.nil_append] at he ⊢
      rw [he, hs.1]
    | read ch =>
      have hq' : q ∈ (mapGet (readQueue p.mds ch).1.subscribers S).elems := by
        rw [readQueue_subscribers]
        exact hq
      obtain ⟨e, he, ho⟩ := ih { p with mds := (readQueue p.mds ch).1 }
        (readQueue_refsInHeap _ _ h1) (readQueue_noAlias _ _ h2) hq'
      refine ⟨e, ?_, ?_⟩
      · simp only [Pipeline.exec, Pipeline.step, received_append, List.append_assoc] at he ⊢
        rw [he, ← List.append_assoc, readQueue_enqueue]
      · simpa [readQueue_dataChannel] using ho

/-! ## Nothing is lost on the way to the fan-out loop -/

theorem Interleave.snoc_left (d : MarketData) {a b m : List MarketData}
    (h : Interleave a b m) : Interleave (a ++ [d]) b (m ++ [d]) := by
  induction h with
  | nil => exact Interleave.left d Interleave.nil
  | left x _ ih => exact Interleave.left x ih
  | right x _ ih => exact Interleave.right x ih

theorem Interleave.snoc_right (d : MarketData) {a b m : List MarketData}
    (h : Interleave a b m) : Interleave a (b ++ [d]) (m ++ [d]) := by
  induction h with
  | nil => exact Interleave.right d Interleave.nil
  | left x _ ih => exact Interleave.left x ih
  | right x _ ih => exact Interleave.right x ih

theorem Interleave.length_eq {a b m : List MarketData} (h : Interleave a b m) :
    m.length = a.length + b.length := by
  induction h with
  | nil => rfl
  | left x _ ih => simp only [List.length_cons, ih]; omega
  | right x _ ih => simp only [List.length_cons, ih]; omega

theorem Interleave.filter (f : MarketData → Bool) {a b m : List MarketData}
    (h : Interleave a b m) : Interleave (a.filter f) (b.filter f) (m.filter f) := by
  induction h with
  | nil => exact Interleave.nil
  | left x _ ih =>
    by_cases hx : f x = true
    · simp only [List.filter_cons, hx, if_true]
      exact Interleave.left x ih
    · simp only [List.filter_cons, hx]
      exact ih
  | right x _ ih =>
    by_cases hx : f x = true
    · simp only [List.filter_cons, hx, if_true]
      exact Interleave.right x ih
    · simp only [List.filter_cons, hx]
      exact ih

/-- One event keeps every record of both streams: those forwarded so far, merged,
are the ones dispatched so far followed by the ingress buffer. -/
theorem step_lossless (p : Pipeline) (ev : Event) (l1 l2 H f1 f2 : List MarketData)
    (hI : Interleave f1 f2 (H ++ p.mds.dataChannel.buf))
    (hl1 : l1 = f1 ++ p.loop1.remaining) (hl2 : l2 = f2 ++ p.loop2.remaining) :
    ∃ g1 g2, Interleave g1 g2 ((H ++ p.taken ev) ++ (p.step ev).1.mds.dataChannel.buf) ∧
      l1 = g1 ++ (p.step ev).1.loop1.remaining ∧ l2 = g2 ++ (p.step ev).1.loop2.remaining := by
  cases ev with
  | receive1 =>
    exact ⟨f1, f2, by simpa [Pipeline.taken, Pipeline.step] using hI,
      by simpa [Pipeline.step, remaining_receive] using hl1, hl2⟩
  | receive2 =>
    exact ⟨f1, f2, by simpa [Pipeline.taken, Pipeline.step] using hI, hl1,
      by simpa [Pipeline.step, remaining_receive] using hl2⟩
  | forward1 =>
    rcases forward_cases p.loop1 p.mds.dataChannel with ⟨d, hrem, hbuf⟩ | hsame
    · refine ⟨f1 ++ [d], f2, ?_, ?_, hl2⟩
      · simp only [Pipeline.taken, Pipeline.step, List.append_nil, hbuf]
        rw [← List.append_assoc]
        exact hI.snoc_left d
      · simp only [Pipeline.step]
        rw [hl1, hrem, List.append_assoc]
        rfl
    · exact ⟨f1, f2, by simpa [Pipeline.taken, Pipeline.step, hsame] using hI,
        by simpa [Pipeline.step, hsame] using hl1, hl2⟩
  | forward2 =>
    rcases forward_cases p.loop2 p.mds.dataChannel with ⟨d, hrem, hbuf⟩ | hsame
    · refine ⟨f1, f2 ++ [d], ?_, hl1, ?_⟩
      · simp only [Pipeline.taken, Pipeline.step, List.append_nil, hbuf]
        rw [← List.append_assoc]
        exact hI.snoc_right d
      · simp only [Pipeline.step]
        rw [hl2, hrem, List.append_assoc]
        rfl
    · exact ⟨f1, f2, by simpa [Pipeline.taken, Pipeline.step, hsame] using hI, hl1,
        by simpa [Pipeline.step, hsame] using hl2⟩
  | dispatch =>
    cases hr : recv p.mds.dataChannel with
    | none =>
      exact ⟨f1, f2, by simpa [Pipeline.taken, Pipeline.step, hr] using hI,
        by simpa [Pipeline.step, hr] using hl1, by simpa [Pipeline.step, hr] using hl2⟩
    | some x =>
      obtain ⟨d, c⟩ := x
      rw [recv_buf _ _ _ hr] at hI
      exact ⟨f1, f2, by simpa [Pipeline.taken, Pipeline.step, hr, fanOut] using hI,
        by simpa [Pipeline.step, hr] using hl1, by simpa [Pipeline.step, hr] using hl2⟩
  | subscribe symbol =>
    exact ⟨f1, f2, by simpa [Pipeline.taken, Pipeline.step, Subscribe] using hI, hl1, hl2⟩
  | read ch =>
    exact ⟨f1, f2, by simpa [Pipeline.taken, Pipeline.step, readQueue_dataChannel] using hI,
      hl1, hl2⟩

theorem exec_lossless (evs : List Event) (p : Pipeline) (l1 l2 H f1 f2 : List MarketData)
    (hI : Interleave f1 f2 (H ++ p.mds.dataChannel.buf))
    (hl1 : l1 = f1 ++ p.loop1.remaining) (hl2 : l2 = f2 ++ p.loop2.remaining) :
    ∃ g1 g2,
      Interleave g1 g2 ((H ++ p.dispatchedBy evs) ++ (p.exec evs).1.mds.dataChannel.buf) ∧
      l1 = g1 ++ (p.exec evs).1.loop1.remaining ∧
      l2 = g2 ++ (p.exec evs).1.loop2.remaining := by
  induction evs generalizing p H f1 f2 with
  | nil => exact ⟨f1, f2, by simpa [Pipeline.dispatchedBy, Pipeline.exec] using hI, hl1, hl2⟩
  | cons ev rest ih =>
    obtain ⟨g1, g2, hI', hl1', hl2'⟩ := step_lossless p ev l1 l2 H f1 f2 hI hl1 hl2
    obtain ⟨k1, k2, hI'', hl1'', hl2''⟩ := ih (p.step ev).1 (H ++ p.taken ev) g1 g2 hI' hl1' hl2'
    refine ⟨k1, k2, ?_, hl1'', hl2''⟩
    simpa [Pipeline.dispatchedBy, Pipeline.exec, List.append_assoc] using hI''

/-! ## What reaches a queue that has room -/

/-- A fan-out step seen from a queue registered under `S`: the record is
enqueued at most once, only if its symbol is `S`, and certainly when the queue
holds fewer than 100 records. -/
theorem fanOut_enqueue_exact (mds : MarketDataService) (d : MarketData) (S : String)
    (q : ChanRef) (h1 : RefsInHeap mds) (h2 : NoAlias mds) (h3 : Bounded mds)
    (hq : q ∈ (mapGet mds.subscribers S).elems) :
    ∃ e, buffered (fanOut mds d) q = buffered mds q ++ e ∧
      e.Sublist ([d].filter (fun r => r.Symbol = S)) ∧
      ((buffered mds q).length < 100 → e = [d].filter (fun r => r.Symbol = S)) := by
  obtain ⟨c, hc⟩ := queue_isSome_of_mem mds S q h1 hq
  have hcap : c.cap = 100 := (h3 c (List.mem_iff_getElem?.2 ⟨q, hc⟩)).1
  have hb : buffered mds q = c.buf := by simp [buffered, hc]
  by_cases hd : d.Symbol = S
  · have hq' : q ∈ (mapGet mds.subscribers d.Symbol).elems := by rw [hd]; exact hq
    have hc' := fanOut_queue_mem mds d q h2 hq'
    rw [hc] at hc'
    by_cases hroom : c.buf.length < c.cap
    · refine ⟨[d], ?_, by simp [hd], fun _ => by simp [hd]⟩
      simp [buffered, hc', hc, trySend, hroom]
    · refine ⟨[], ?_, by simp, fun hlt => ?_⟩
      · simp [buffered, hc', hc, trySend, hroom]
      · rw [hb] at hlt
        omega
  · have hq' : q ∉ (mapGet mds.subscribers d.Symbol).elems :=
      fun hmem => disjoint_mapGet _ _ _ q h2 (Ne.symm hd) hq hmem
    refine ⟨[], ?_, by simp, fun _ => by simp [hd]⟩
    simp [buffered, fanOut_queue_not_mem mds d q hq']

theorem dispatchedBy_cons (ev : Event) (rest : List Event) (p : Pipeline) :
    p.dispatchedBy (ev :: rest) = p.taken ev ++ Pipeline.dispatchedBy rest (p.step ev).1 := rfl

theorem exec_cons (ev : Event) (rest : List Event) (p : Pipeline) :
    p.exec (ev :: rest) = ((Pipeline.exec rest (p.step ev).1).1,
      (p.step ev).2 ++ (Pipeline.exec rest (p.step ev).1).2) := rfl

/-- One event seen from a queue registered under `S`. -/
theorem step_delivery (p : Pipeline) (ev : Event) (S : String) (q : ChanRef)
    (h1 : RefsInHeap p.mds) (h2 : NoAlias p.mds) (h3 : Bounded p.mds)
    (hq : q ∈ (mapGet p.mds.subscribers S).elems) :
    (∃ e, received q (p.step ev).2 ++ buffered (p.step ev).1.mds q = buffered p.mds q ++ e ∧
      e.Sublist ((p.taken ev).filter (fun r => r.Symbol = S)) ∧
      ((buffered p.mds q).length + ((p.taken ev).filter (fun r => r.Symbol = S)).length ≤ 100 →
        e = (p.taken ev).filter (fun r => r.Symbol = S))) ∧
    RefsInHeap (p.step ev).1.mds ∧ NoAlias (p.step ev).1.mds ∧ Bounded (p.step ev).1.mds ∧
    q ∈ (mapGet (p.step ev).1.mds.subscribers S).elems := by
  cases ev with
  | receive1 =>
    exact ⟨⟨[], by simp [Pipeline.step, received], by simp, fun _ => by simp [Pipeline.taken]⟩,
      h1, h2, h3, hq⟩
  | receive2 =>
    exact ⟨⟨[], by simp [Pipeline.step, received], by simp, fun _ => by simp [Pipeline.taken]⟩,
      h1, h2, h3, hq⟩
  | forward1 =>
    exact ⟨⟨[], by simp [Pipeline.step, received, buffered, queue], by simp,
      fun _ => by simp [Pipeline.taken]⟩, h1, h2, h3, hq⟩
  | forward2 =>
    exact ⟨⟨[], by simp [Pipeline.step, received, buffered, queue], by simp,
      fun _ => by simp [Pipeline.taken]⟩, h1, h2, h3, hq⟩
  | dispatch =>
    cases hr : recv p.mds.dataChannel with
    | none =>
      have hstep : p.step .dispatch = (p, []) := by simp [Pipeline.step, hr]
      rw [hstep]
      exact ⟨⟨[], by simp [received], by simp, fun _ => by simp [Pipeline.taken, hr]⟩,
        h1, h2, h3, hq⟩
    | some x =>
      obtain ⟨d, c⟩ := x
      have hstep : p.step .dispatch
          = ({ p with mds := fanOut { p.mds with dataChannel := c } d }, []) := by
        simp [Pipeline.step, hr]
      have htaken : p.taken .dispatch = [d] := by simp [Pipeline.taken, hr]
      obtain ⟨e, he, hsub, hex⟩ :=
        fanOut_enqueue_exact { p.mds with dataChannel := c } d S q h1 h2 h3 hq
      rw [hstep, htaken]
      refine ⟨⟨e, ?_, hsub, fun hroom => ?_⟩, fanOut_refsInHeap _ d h1, h2,
        fanOut_bounded _ d h3, hq⟩
      · simp only [received, List.filter_nil, List.map_nil, List.nil_append]
        rw [he]
        rfl
      · by_cases hd : d.Symbol = S
        · apply hex
          have hlen : ([d].filter (fun r => decide (r.Symbol = S))).length = 1 := by simp [hd]
          rw [hlen] at hroom
          have hb : buffered { p.mds with dataChannel := c } q = buffered p.mds q := rfl
          rw [hb]
          omega
        · have hnil : [d].filter (fun r => decide (r.Symbol = S)) = [] := by simp [hd]
          rw [hnil] at hsub ⊢
          exact List.eq_nil_of_sublist_nil hsub
  | subscribe symbol =>
    have hs := Subscribe_enqueue p.mds symbol S q h1 hq
    exact ⟨⟨[], by simp [Pipeline.step, received, hs.1], by simp,
      fun _ => by simp [Pipeline.taken]⟩, Subscribe_refsInHeap _ _ h1,
      Subscribe_noAlias _ _ h1 h2, Subscribe_bounded _ _ h3, hs.2⟩
  | read ch =>
    refine ⟨⟨[], ?_, by simp, fun _ => by simp [Pipeline.taken]⟩, readQueue_refsInHeap _ _ h1,
      readQueue_noAlias _ _ h2, readQueue_bounded _ _ h3, ?_⟩
    · simp [Pipeline.step, readQueue_enqueue]
    · simp only [Pipeline.step, readQueue_subscribers]
      exact hq

/-- Along every schedule, what passes through a queue registered under `S` is a
sublist of the dispatched records of symbol `S`, and all of them when they fit
into the queue together with what it held at the start. -/
theorem exec_delivery (evs : List Event) (p : Pipeline) (S : String) (q : ChanRef)
    (h1 : RefsInHeap p.mds) (h2 : NoAlias p.mds) (h3 : Bounded p.mds)
    (hq : q ∈ (mapGet p.mds.subscribers S).elems) :
    ∃ e, received q (p.exec evs).2 ++ buffered (p.exec evs).1.mds q = buffered p.mds q ++ e ∧
      e.Sublist ((p.dispatchedBy evs).filter (fun r => r.Symbol = S)) ∧
      ((buffered p.mds q).length +
          ((p.dispatchedBy evs).filter (fun r => r.Symbol = S)).length ≤ 100 →
        e = (p.dispatchedBy evs).filter (fun r => r.Symbol = S)) := by
  induction evs generalizing p with
  | nil => exact ⟨[], by simp [Pipeline.exec, received], by simp, fun _ => by
      simp [Pipeline.dispatchedBy]⟩
  | cons ev rest ih =>
    obtain ⟨⟨e1, he1, hs1, hx1⟩, k1, k2, k3, kq⟩ := step_delivery p ev S q h1 h2 h3 hq
    obtain ⟨e2, he2, hs2, hx2⟩ := ih (p.step ev).1 k1 k2 k3 kq
    have hlen : (received q (p.step ev).2).length + (buffered (p.step ev).1.mds q).length
        = (buffered p.mds q).length + e1.length := by
      rw [← List.length_append, he1, List.length_append]
    refine ⟨e1 ++ e2, ?_, ?_, fun hroom => ?_⟩
    · rw [exec_cons]
      simp only [received_append, List.append_assoc]
      rw [he2, ← List.append_assoc, he1, List.append_assoc]
    · rw [dispatchedBy_cons, List.filter_append]
      exact List.Sublist.append hs1 hs2
    · rw [dispatchedBy_cons, List.filter_append, List.length_append] at hroom
      rw [dispatchedBy_cons, List.filter_append]
      have e1eq := hx1 (by omega)
      have e2eq := hx2 (by
        have := hs1.length_le
        rw [e1eq] at hlen
        omega)
      rw [e1eq, e2eq]

/-! ## A schedule that forwards and dispatches everything -/

theorem exec_append (a b : List Event) (p : Pipeline) :
    (p.exec (a ++ b)).1 = (Pipeline.exec b (p.exec a).1).1 := by
  induction a generalizing p with
  | nil => rfl
  | cons ev rest ih => simp only [List.cons_append, exec_cons, ih]

theorem dispatchedBy_append (a b : List Event) (p : Pipeline) :
    p.dispatchedBy (a ++ b) = p.dispatchedBy a ++ Pipeline.dispatchedBy b (p.exec a).1 := by
  induction a generalizing p with
  | nil => rfl
  | cons ev rest ih =>
    simp only [List.cons_append, dispatchedBy_cons, exec_cons, ih, List.append_assoc]

/-- One round of the first loop and the fan-out loop: the next record of the
first stream is received, forwarded and dispatched. -/
theorem round1 (p : Pipeline) (d : MarketData) (rest : List MarketData)
    (hl : p.loop1 = { data := none, stream := d :: rest })
    (hbuf : p.mds.dataChannel.buf = []) (hcap : 0 < p.mds.dataChannel.cap) :
    (p.exec [.receive1, .forward1, .dispatch]).1
      = { p with loop1 := { data := none, stream := rest }, mds := fanOut p.mds d } ∧
    p.dispatchedBy [.receive1, .forward1, .dispatch] = [d] := by
  obtain ⟨loop1, loop2, mds⟩ := p
  obtain ⟨sources, ⟨cap, buf⟩, subscribers, chans⟩ := mds
  simp only at hl hbuf hcap
  subst hl hbuf
  simp [Pipeline.exec, Pipeline.step, Pipeline.dispatchedBy, Pipeline.taken, Ingest.receive,
    Ingest.forward, recv, hcap, fanOut]

theorem round2 (p : Pipeline) (d : MarketData) (rest : List MarketData)
    (hl : p.loop2 = { data := none, stream := d :: rest })
    (hbuf : p.mds.dataChannel.buf = []) (hcap : 0 < p.mds.dataChannel.cap) :
    (p.exec [.receive2, .forward2, .dispatch]).1
      = { p with loop2 := { data := none, stream := rest }, mds := fanOut p.mds d } ∧
    p.dispatchedBy [.receive2, .forward2, .dispatch] = [d] := by
  obtain ⟨loop1, loop2, mds⟩ := p
  obtain ⟨sources, ⟨cap, buf⟩, subscribers, chans⟩ := mds
  simp only at hl hbuf hcap
  subst hl hbuf
  simp [Pipeline.exec, Pipeline.step, Pipeline.dispatchedBy, Pipeline.taken, Ingest.receive,
    Ingest.forward, recv, hcap, fanOut]

theorem rounds1 (l : List MarketData) (p : Pipeline)
    (hl : p.loop1 = { data := none, stream := l })
    (hbuf : p.mds.dataChannel.buf = []) (hcap : 0 < p.mds.dataChannel.cap) :
    (p.exec (List.replicate l.length
        [Event.receive1, Event.forward1, Event.dispatch]).flatten).1.loop1
      = { data := none, stream := [] } ∧
    (p.exec (List.replicate l.length
        [Event.receive1, Event.forward1, Event.dispatch]).flatten).1.loop2 = p.loop2 ∧
    (p.exec (List.replicate l.length
        [Event.receive1, Event.forward1, Event.dispatch]).flatten).1.mds.dataChannel
      = p.mds.dataChannel ∧
    p.dispatchedBy (List.replicate l.length
        [Event.receive1, Event.forward1, Event.dispatch]).flatten = l := by
  induction l generalizing p with
  | nil => exact ⟨hl, rfl, rfl, rfl⟩
  | cons d rest ih =>
    obtain ⟨hex, hdis⟩ := round1 p d rest hl hbuf hcap
    have hrep : (List.replicate (d :: rest).length
        [Event.receive1, Event.forward1, Event.dispatch]).flatten
        = [Event.receive1, Event.forward1, Event.dispatch] ++
          (List.replicate rest.length
            [Event.receive1, Event.forward1, Event.dispatch]).flatten := by
      simp [List.replicate_succ]
    rw [hrep, exec_append, dispatchedBy_append, hex, hdis]
    obtain ⟨i1, i2, i3, i4⟩ :=
      ih { p with loop1 := { data := none, stream := rest }, mds := fanOut p.mds d }
        rfl hbuf hcap
    exact ⟨i1, i2, i3, by rw [i4]; rfl⟩

theorem rounds2 (l : List MarketData) (p : Pipeline)
    (hl : p.loop2 = { data := none, stream := l })
    (hbuf : p.mds.dataChannel.buf = []) (hcap : 0 < p.mds.dataChannel.cap) :
    (p.exec (List.replicate l.length
        [Event.receive2, Event.forward2, Event.dispatch]).flatten).1.loop2
      = { data := none, stream := [] } ∧
    (p.exec (List.replicate l.length
        [Event.receive2, Event.forward2, Event.dispatch]).flatten).1.loop1 = p.loop1 ∧
    (p.exec (List.replicate l.length
        [Event.receive2, Event.forward2, Event.dispatch]).flatten).1.mds.dataChannel
      = p.mds.dataChannel ∧
    p.dispatchedBy (List.replicate l.length
        [Event.receive2, Event.forward2, Event.dispatch]).flatten = l := by
  induction l generalizing p with
  | nil => exact ⟨hl, rfl, rfl, rfl⟩
  | cons d rest ih =>
    obtain ⟨hex, hdis⟩ := round2 p d rest hl hbuf hcap
    have hrep : (List.replicate (d :: rest).length
        [Event.receive2, Event.forward2, Event.dispatch]).flatten
        = [Event.receive2, Event.forward2, Event.dispatch] ++
          (List.replicate rest.length
            [Event.receive2, Event.forward2, Event.dispatch]).flatten := by
      simp [List.replicate_succ]
    rw [hrep, exec_append, dispatchedBy_append, hex, hdis]
    obtain ⟨i1, i2, i3, i4⟩ :=
      ih { p with loop2 := { data := none, stream := rest }, mds := fanOut p.mds d }
        rfl hbuf hcap
    exact ⟨i1, i2, i3, by rw [i4]; rfl⟩

/-- The schedule `drainSchedule` forwards every record of both streams and has
each dispatched: both loops end with nothing left, the ingress channel ends
empty, and the dispatched records are the first stream followed by the second. -/
theorem drainSchedule_drains (p : Pipeline) (l1 l2 : List MarketData)
    (hl1 : p.loop1 = { data := none, stream := l1 })
    (hl2 : p.loop2 = { data := none, stream := l2 })
    (hbuf : p.mds.dataChannel.buf = []) (hcap : 0 < p.mds.dataChannel.cap) :
    (p.exec (drainSchedule l1.length l2.length)).1.loop1.remaining = [] ∧
    (p.exec (drainSchedule l1.length l2.length)).1.loop2.remaining = [] ∧
    (p.exec (drainSchedule l1.length l2.length)).1.mds.dataChannel.buf = [] ∧
    p.dispatchedBy (drainSchedule l1.length l2.length) = l1 ++ l2 := by
  obtain ⟨a1, a2, a3, a4⟩ := rounds1 l1 p hl1 hbuf hcap
  obtain ⟨b1, b2, b3, b4⟩ := rounds2 l2
    (p.exec (List.replicate l1.length
      [Event.receive1, Event.forward1, Event.dispatch]).flatten).1
    (a2.trans hl2) (by rw [a3]; exact hbuf) (by rw [a3]; exact hcap)
  unfold drainSchedule
  rw [exec_append, dispatchedBy_append, b1, b2, a1, b3, a3, a4, b4]
  exact ⟨rfl, rfl, hbuf, rfl⟩

/-- Every state reached from `NewMarketDataService` satisfies the invariants the
claims are stated under. -/
theorem reachable_invariant (acts : List Action) :
    RefsInHeap (run acts NewMarketDataService).1 ∧ NoAlias (run acts NewMarketDataService).1 ∧
      Bounded (run acts NewMarketDataService).1 ∧ NonNil (run acts NewMarketDataService).1 :=
  run_invariant acts _ new_invariant

/-- No call or fan-out step touches the ingress channel: it is as
`NewMarketDataService` made it until the ingestion loops send on it. -/
theorem run_dataChannel (acts : List Action) (mds : MarketDataService) :
    (run acts mds).1.dataChannel = mds.dataChannel := by
  induction acts generalizing mds with
  | nil => rfl
  | cons a rest ih =>
    have hstep : (step mds a).1.dataChannel = mds.dataChannel := by
      cases a with
      | subscribe symbol => rfl
      | addSource name source => rfl
      | dispatch d => rfl
      | read ch => exact readQueue_dataChannel mds ch
    simp only [run]
    rw [ih, hstep]

/-! ## The claims -/

/-- C1: in every service state (references valid), calling Subscribe(S) and then
running the fan-out step on a record whose Symbol is S leaves exactly that
record in the queue that Subscribe returned. -/
theorem subscribe_then_fanOut_delivers (mds : MarketDataService) (S : String)
    (d : MarketData) (hS : d.Symbol = S) (h : RefsInHeap mds) :
    queue (fanOut (Subscribe mds S).2 d) (Subscribe mds S).1
      = some { cap := 100, buf := [d] } := by
  have hnot : mds.chans.length ∉ (mapGet mds.subscribers S).elems := fun hmem =>
    Nat.lt_irrefl _ (h _ (mem_allRefs_of_mem_mapGet _ _ _ hmem))
  simp only [queue, fanOut, Subscribe, hS, mapGet_mapSet_self, elems_append,
    List.foldl_append, List.foldl_cons, List.foldl_nil]
  rw [deliver_get_self, foldl_deliver_get_not_mem d _ _ _ hnot]
  simp [trySend, makeChan]

theorem subscribe_then_fanOut_delivers_witness :
    queue (fanOut (Subscribe sampleHub "AAPL").2 aapl) (Subscribe sampleHub "AAPL").1
      = some { cap := 100, buf := [aapl] } :=
  subscribe_then_fanOut_delivers sampleHub "AAPL" aapl (by decide) (by decide)

/-- C3: one fan-out step appends the record to every subscriber queue of the
record's symbol that is not full and leaves every full one unchanged, wherever
the queue stands in the subscriber list. -/
theorem fanOut_each_subscriber (mds : MarketDataService) (d : MarketData)
    (hna : NoAlias mds) (q : ChanRef) (c : Chan)
    (hq : q ∈ (mapGet mds.subscribers d.Symbol).elems) (hc : queue mds q = some c) :
    (c.buf.length < c.cap → queue (fanOut mds d) q = some { c with buf := c.buf ++ [d] }) ∧
    (¬ c.buf.length < c.cap → queue (fanOut mds d) q = some c) := by
  rw [fanOut_queue_mem mds d q hna hq, hc]
  constructor
  · intro hlt
    simp [trySend, hlt]
  · intro hge
    simp [trySend, hge]

set_option maxRecDepth 100000 in
theorem fanOut_each_subscriber_witness :
    queue fullFirstHub 0 = some { cap := 100, buf := List.replicate 100 aapl } ∧
    queue fullFirstHub 2 = some { cap := 100, buf := List.replicate 99 aapl } ∧
    (mapGet fullFirstHub.subscribers aaplNext.Symbol).elems = [0, 2] ∧
    queue (fanOut fullFirstHub aaplNext) 0
      = some { cap := 100, buf := List.replicate 100 aapl } ∧
    queue (fanOut fullFirstHub aaplNext) 2
      = some { cap := 100, buf := List.replicate 99 aapl ++ [aaplNext] } :=
  ⟨by decide, by decide, by decide,
   (fanOut_each_subscriber fullFirstHub aaplNext (by decide) 0
      { cap := 100, buf := List.replicate 100 aapl } (by decide) (by decide)).2 (by decide),
   (fanOut_each_subscriber fullFirstHub aaplNext (by decide) 2
      { cap := 100, buf := List.replicate 99 aapl } (by decide) (by decide)).1 (by decide)⟩

/-- C2: the queue returned by Subscribe(S) has capacity 100; after the fan-out
loop has dispatched 100 records of symbol S it holds exactly these, in order,
and after one more record of symbol S has been dispatched it still holds
exactly these: the 101st is dropped and the step completes. -/
theorem overflow_drops_newest (mds : MarketDataService) (S : String)
    (rs : List MarketData) (d : MarketData)
    (h1 : RefsInHeap mds) (h2 : NoAlias mds) (hlen : rs.length = 100)
    (hrs : ∀ r ∈ rs, r.Symbol = S) (hd : d.Symbol = S) :
    queue (Subscribe mds S).2 (Subscribe mds S).1 = some { cap := 100, buf := [] } ∧
    queue (distributeData (Subscribe mds S).2 rs) (Subscribe mds S).1
      = some { cap := 100, buf := rs } ∧
    queue (distributeData (Subscribe mds S).2 (rs ++ [d])) (Subscribe mds S).1
      = some { cap := 100, buf := rs } := by
  have hna := Subscribe_noAlias mds S h1 h2
  have hf : rs.filter (fun r => r.Symbol = S) = rs :=
    List.filter_eq_self.2 (fun r hr => by simpa using hrs r hr)
  refine ⟨Subscribe_queue_new mds S, ?_, ?_⟩
  · rw [distributeData_queue rs _ S _ _ hna (Subscribe_mem_new mds S) (Subscribe_queue_new mds S)]
    simp [hf, ← hlen]
  · rw [distributeData_queue (rs ++ [d]) _ S _ _ hna (Subscribe_mem_new mds S)
      (Subscribe_queue_new mds S)]
    simp [hf, hd, ← hlen]

theorem overflow_drops_newest_witness :
    queue (Subscribe sampleHub "AAPL").2 (Subscribe sampleHub "AAPL").1
      = some { cap := 100, buf := [] } ∧
    queue (distributeData (Subscribe sampleHub "AAPL").2 (List.replicate 100 aapl))
        (Subscribe sampleHub "AAPL").1
      = some { cap := 100, buf := List.replicate 100 aapl } ∧
    queue (distributeData (Subscribe sampleHub "AAPL").2
        (List.replicate 100 aapl ++ [{ Symbol := "AAPL", Price := 9, Volume := 1 }]))
        (Subscribe sampleHub "AAPL").1
      = some { cap := 100, buf := List.replicate 100 aapl } :=
  overflow_drops_newest sampleHub "AAPL" (List.replicate 100 aapl)
    { Symbol := "AAPL", Price := 9, Volume := 1 } (by decide) (by decide)
    (List.length_replicate 100 aapl)
    (fun r hr => by rw [List.eq_of_mem_replicate hr]; rfl) rfl

/-- C7: a fan-out step for a record whose symbol has no registered subscriber
(the key is absent, or its slice is empty) returns the state unchanged. -/
theorem fanOut_no_subscribers (mds : MarketDataService) (d : MarketData)
    (h : d.Symbol ∉ mapKeys mds.subscribers ∨ (mapGet mds.subscribers d.Symbol).elems = []) :
    fanOut mds d = mds := by
  have he : (mapGet mds.subscribers d.Symbol).elems = [] := by
    rcases h with h | h
    · rw [mapGet_eq_none_of_not_mem_keys _ _ h]
      rfl
    · exact h
  simp [fanOut, he]

theorem fanOut_no_subscribers_witness :
    fanOut sampleHub { Symbol := "GOOG", Price := 1, Volume := 2 } = sampleHub :=
  fanOut_no_subscribers sampleHub { Symbol := "GOOG", Price := 1, Volume := 2 }
    (Or.inl (by decide))

/-- C8: in every state reached from NewMarketDataService by Subscribe calls,
fan-out steps (and AddSource calls and reads of the queues), every symbol key
present in the registry is mapped to a non-nil slice. -/
theorem registry_keys_non_nil (acts : List Action) (k : String)
    (hk : k ∈ mapKeys (run acts NewMarketDataService).1.subscribers) :
    mapGet (run acts NewMarketDataService).1.subscribers k ≠ none :=
  mapGet_ne_none_of_mem_keys _ k (run_invariant acts _ new_invariant).2.2.2 hk

theorem registry_keys_non_nil_witness :
    mapGet (run [.subscribe "AAPL", .dispatch aapl, .subscribe "MSFT"]
      NewMarketDataService).1.subscribers "MSFT" ≠ none :=
  registry_keys_non_nil [.subscribe "AAPL", .dispatch aapl, .subscribe "MSFT"] "MSFT"
    (by decide)

/-- C10: one fan-out step leaves the registry as it is, leaves every queue
registered under another symbol than the record's as it is, and keeps every
queue at capacity 100 with at most that many records. -/
theorem fanOut_frame (mds : MarketDataService) (d : MarketData)
    (hna : NoAlias mds) (hb : Bounded mds) :
    (fanOut mds d).subscribers = mds.subscribers ∧
    (∀ k q, k ≠ d.Symbol → q ∈ (mapGet mds.subscribers k).elems →
      queue (fanOut mds d) q = queue mds q) ∧
    (∀ c ∈ (fanOut mds d).chans, c.cap = 100 ∧ c.buf.length ≤ 100) := by
  refine ⟨rfl, ?_, ?_⟩
  · intro k q hk hq
    exact fanOut_queue_not_mem mds d q (disjoint_mapGet _ k d.Symbol q hna hk hq)
  · intro c hc
    have := fanOut_bounded mds d hb c hc
    exact ⟨this.1, this.1 ▸ this.2⟩


theorem fanOut_frame_witness :
    (fanOut sampleHub aapl).subscribers = sampleHub.subscribers ∧
    (∀ k q, k ≠ aapl.Symbol → q ∈ (mapGet sampleHub.subscribers k).elems →
      queue (fanOut sampleHub aapl) q = queue sampleHub q) ∧
    (∀ c ∈ (fanOut sampleHub aapl).chans, c.cap = 100 ∧ c.buf.length ≤ 100) :=
  fanOut_frame sampleHub aapl (by decide) (by decide)


/-- C4 as stated fails: with the working source visited first, Start returns the
error of the failing source while the working source stays connected and its
ingestion loop stays started. -/
theorem start_rollback_counterexample :
    [("good", goodSource), ("bad", badSource)].Perm twoSourceHub.sources ∧
    (Start [("good", goodSource), ("bad", badSource)]).1 = some "connection refused" ∧
    ¬ (rolledBack (Start [("good", goodSource), ("bad", badSource)]).2 = true) ∧
    connectedAfter "good" (Start [("good", goodSource), ("bad", badSource)]).2 = true ∧
    loopsStarted (Start [("good", goodSource), ("bad", badSource)]).2 = ["good"] := by
  decide

/-- C4 amended: with two registered sources of which one fails to Connect, Start
returns that error in either visiting order and never starts the fan-out loop,
and it calls no Disconnect: if the failing source is visited first nothing is
connected and no ingestion loop is started; if the working source is visited
first, it stays connected and its ingestion loop stays started. -/
theorem start_failure_no_rollback (mds : MarketDataService) (na nb : String)
    (a b : DataSource) (err : String) (visit : List (String × DataSource))
    (hsrc : mds.sources.Perm [(na, a), (nb, b)]) (hne : na ≠ nb)
    (ha : a.connectErr = some err) (hb : b.connectErr = none)
    (hv : visit.Perm mds.sources) :
    (Start visit).1 = some err ∧
    Effect.goDistributeData ∉ (Start visit).2 ∧
    (∀ name, Effect.disconnect name ∉ (Start visit).2) ∧
    ((visit = [(na, a), (nb, b)] ∧ (Start visit).2 = [.connect na (some err)] ∧
        rolledBack (Start visit).2 = true ∧ loopsStarted (Start visit).2 = []) ∨
     (visit = [(nb, b), (na, a)] ∧
        (Start visit).2 = [.connect nb none, .goConsumeSource nb, .connect na (some err)] ∧
        connectedAfter nb (Start visit).2 = true ∧ loopsStarted (Start visit).2 = [nb])) := by
  replace hv := hv.trans hsrc
  have hpair : (na, a) ≠ (nb, b) := fun e => hne (congrArg Prod.fst e)
  rcases perm_pair (na, a) (nb, b) hpair visit hv with rfl | rfl
  · refine ⟨by simp [Start, ha], by simp [Start, ha], by simp [Start, ha], Or.inl ?_⟩
    simp [Start, ha, rolledBack, loopsStarted]
  · refine ⟨by simp [Start, ha, hb], by simp [Start, ha, hb], by simp [Start, ha, hb],
      Or.inr ?_⟩
    simp [Start, ha, hb, connectedAfter, loopsStarted]

theorem start_failure_no_rollback_witness :
    (Start [("good", goodSource), ("bad", badSource)]).1 = some "connection refused" ∧
    Effect.goDistributeData ∉ (Start [("good", goodSource), ("bad", badSource)]).2 :=
  have h := start_failure_no_rollback twoSourceHub "bad" "good" badSource goodSource
    "connection refused" [("good", goodSource), ("bad", badSource)]
    (by decide) (by decide) rfl rfl (by decide)
  ⟨h.1, h.2.1⟩

/-- C9: a fetch cycle whose HTTP request fails, or whose response fails to
decode, sends no record and does not close the stream (the adapter is as it
was, one line is printed, the method returns).  Records are sent only after a
successful decode, by the send loop over the decoded quotes: on an open
stream, run without a receive in between, it sends one record per quote, in
response order, with Symbol, Price and Volume copied from the quote, as many
as the buffer of capacity 100 has room for; if all fit the method returns,
otherwise the cycle waits with the remaining quotes, and once resumed it sends
these in the same way.  Under every schedule of sends and receives on an open
stream nothing panics and the records handed to the reader, then the buffered
ones, then the ones still to be sent are exactly the records buffered at the
start followed by one record per quote in response order. -/
theorem fetch_cycle_sends (yf : YahooFinanceDataSource)
    (get : String → Except String String) (decode : String → Except String (List Quote)) :
    (∀ err, get (yahooFinanceBaseURL ++ ",".intercalate yf.symbols) = .error err →
      yf.fetchRealtimeData get decode
        = .returned yf ["Error fetching data: " ++ err ++ "\n"]) ∧
    (∀ body err, get (yahooFinanceBaseURL ++ ",".intercalate yf.symbols) = .ok body →
      decode body = .error err →
      yf.fetchRealtimeData get decode
        = .returned yf ["Error decoding response: " ++ err ++ "\n"]) ∧
    (∀ body quotes, get (yahooFinanceBaseURL ++ ",".intercalate yf.symbols) = .ok body →
      decode body = .ok quotes → yf.dataStream.closed = false →
      yf.fetchRealtimeData get decode = sendQuotes quotes yf ∧
      (quotes.length ≤ yf.dataStream.cap - yf.dataStream.buf.length →
        yf.fetchRealtimeData get decode = .returned { yf with dataStream :=
          { yf.dataStream with
            buf := yf.dataStream.buf ++ quotes.map Quote.toMarketData } } []) ∧
      (yf.dataStream.cap - yf.dataStream.buf.length < quotes.length →
        yf.fetchRealtimeData get decode = .blocked { yf with dataStream :=
          { yf.dataStream with
            buf := yf.dataStream.buf ++
              (quotes.take (yf.dataStream.cap - yf.dataStream.buf.length)).map
                Quote.toMarketData } }
          (quotes.drop (yf.dataStream.cap - yf.dataStream.buf.length)))) ∧
    (∀ (later : YahooFinanceDataSource) (pending : List Quote),
      later.dataStream.closed = false →
      (pending.length ≤ later.dataStream.cap - later.dataStream.buf.length →
        sendQuotes pending later = .returned { later with dataStream :=
          { later.dataStream with
            buf := later.dataStream.buf ++ pending.map Quote.toMarketData } } []) ∧
      (later.dataStream.cap - later.dataStream.buf.length < pending.length →
        sendQuotes pending later = .blocked { later with dataStream :=
          { later.dataStream with
            buf := later.dataStream.buf ++
              (pending.take (later.dataStream.cap - later.dataStream.buf.length)).map
                Quote.toMarketData } }
          (pending.drop (later.dataStream.cap - later.dataStream.buf.length)))) ∧
    (∀ (later : YahooFinanceDataSource) (pending : List Quote) (moves : List Move),
      later.dataStream.closed = false →
      ∃ c out, Sending.run moves { yf := later, pending := pending } = some (c, out) ∧
        c.yf.dataStream.closed = false ∧
        out ++ c.yf.dataStream.buf ++ c.pending.map Quote.toMarketData
          = later.dataStream.buf ++ pending.map Quote.toMarketData) ∧
    (∀ (later : YahooFinanceDataSource) (pending : List Quote),
      later.dataStream.closed = false →
      ∃ c, Sending.run (List.replicate pending.length Move.send)
          { yf := later, pending := pending } = some (c, []) ∧
        sendQuotes pending later
          = if c.pending = [] then .returned c.yf [] else .blocked c.yf c.pending) := by
  have key : ∀ (later : YahooFinanceDataSource) (pending : List Quote),
      later.dataStream.closed = false →
      (pending.length ≤ later.dataStream.cap - later.dataStream.buf.length →
        sendQuotes pending later = .returned { later with dataStream :=
          { later.dataStream with
            buf := later.dataStream.buf ++ pending.map Quote.toMarketData } } []) ∧
      (later.dataStream.cap - later.dataStream.buf.length < pending.length →
        sendQuotes pending later = .blocked { later with dataStream :=
          { later.dataStream with
            buf := later.dataStream.buf ++
              (pending.take (later.dataStream.cap - later.dataStream.buf.length)).map
                Quote.toMarketData } }
          (pending.drop (later.dataStream.cap - later.dataStream.buf.length))) := by
    intro later pending hopen
    constructor
    · intro hfit
      rw [sendQuotes_open pending later hopen, if_pos hfit]
    · intro hmore
      rw [sendQuotes_open pending later hopen, if_neg (by omega)]
  refine ⟨?_, ?_, ?_, key, ?_, fun later pending hopen => sendQuotes_eq_run pending later hopen⟩
  · intro err h
    simp [YahooFinanceDataSource.fetchRealtimeData, h]
  · intro body err h hd
    simp [YahooFinanceDataSource.fetchRealtimeData, h, hd]
  · intro body quotes h hd hopen
    have hf : yf.fetchRealtimeData get decode = sendQuotes quotes yf := by
      simp [YahooFinanceDataSource.fetchRealtimeData, h, hd]
    refine ⟨hf, ?_⟩
    rw [hf]
    exact key yf quotes hopen
  · intro later pending moves hopen
    obtain ⟨c, out, hr, hc, _, _, hcons⟩ :=
      Sending.run_conserves moves { yf := later, pending := pending } hopen
    exact ⟨c, out, hr, hc, hcons⟩

set_option maxRecDepth 100000 in
theorem fetch_cycle_sends_witness :
    (NewYahooFinanceDataSource ["AAPL", "MSFT"]).fetchRealtimeData
        (fun _ => .error "timeout") (fun _ => .ok sampleQuotes)
      = .returned (NewYahooFinanceDataSource ["AAPL", "MSFT"])
          ["Error fetching data: timeout\n"] ∧
    (NewYahooFinanceDataSource ["AAPL", "MSFT"]).fetchRealtimeData
        (fun _ => .ok "oops") (fun _ => .error "invalid character")
      = .returned (NewYahooFinanceDataSource ["AAPL", "MSFT"])
          ["Error decoding response: invalid character\n"] ∧
    (NewYahooFinanceDataSource ["AAPL", "MSFT"]).fetchRealtimeData
        (fun _ => .ok "body") (fun _ => .ok sampleQuotes)
      = .returned { dataStream := { cap := 100, buf := [aapl, msft], closed := false },
                    symbols := ["AAPL", "MSFT"] } [] ∧
    nearlyFullAdapter.fetchRealtimeData (fun _ => .ok "body") (fun _ => .ok sampleQuotes)
      = .blocked fullAdapter [⟨"MSFT", 4645678901234567890, 12⟩] ∧
    sendQuotes [⟨"MSFT", 4645678901234567890, 12⟩] fullAdapter.readerReceives
      = .returned ⟨⟨100, List.replicate 99 aapl ++ [msft], false⟩, ["AAPL", "MSFT"]⟩ [] :=
  ⟨(fetch_cycle_sends (NewYahooFinanceDataSource ["AAPL", "MSFT"])
      (fun _ => .error "timeout") (fun _ => .ok sampleQuotes)).1 "timeout" rfl,
   (fetch_cycle_sends (NewYahooFinanceDataSource ["AAPL", "MSFT"])
      (fun _ => .ok "oops") (fun _ => .error "invalid character")).2.1 "oops"
      "invalid character" rfl rfl,
   ((fetch_cycle_sends (NewYahooFinanceDataSource ["AAPL", "MSFT"])
      (fun _ => .ok "body") (fun _ => .ok sampleQuotes)).2.2.1 "body" sampleQuotes
      rfl rfl rfl).2.1 (by decide),
   ((fetch_cycle_sends nearlyFullAdapter
      (fun _ => .ok "body") (fun _ => .ok sampleQuotes)).2.2.1 "body" sampleQuotes
      rfl rfl rfl).2.2 (by decide),
   ((fetch_cycle_sends nearlyFullAdapter
      (fun _ => .ok "body") (fun _ => .ok sampleQuotes)).2.2.2.1 fullAdapter.readerReceives
      [⟨"MSFT", 4645678901234567890, 12⟩] rfl).1 (by decide)⟩

/-- C5: for every sequence of fan-out steps (interleaved with Subscribe calls
and reads) and every queue registered under S, the records enqueued on the
queue (what its reader received and what it still buffers, beyond what it
buffered at the start) form a sublist of the dispatched records of symbol S:
same relative order, each dispatched record at most once. -/
theorem delivery_at_most_once (acts : List Action) (mds : MarketDataService) (S : String)
    (q : ChanRef) (h1 : RefsInHeap mds) (h2 : NoAlias mds)
    (hq : q ∈ (mapGet mds.subscribers S).elems) :
    ∃ e, received q (run acts mds).2 ++ buffered (run acts mds).1 q = buffered mds q ++ e ∧
      e.Sublist ((dispatched acts).filter (fun r => r.Symbol = S)) := by
  induction acts generalizing mds with
  | nil => exact ⟨[], by simp [run, received], by simp⟩
  | cons a rest ih =>
    obtain ⟨⟨e1, he1, hs1⟩, hq'⟩ := step_enqueue mds a S q h1 h2 hq
    have hinv : RefsInHeap (step mds a).1 ∧ NoAlias (step mds a).1 := by
      cases a with
      | subscribe symbol =>
        exact ⟨Subscribe_refsInHeap mds symbol h1, Subscribe_noAlias mds symbol h1 h2⟩
      | addSource name source => exact ⟨h1, h2⟩
      | dispatch d =>
        refine ⟨?_, h2⟩
        intro r hr
        simp only [step, fanOut_chans_length]
        exact h1 r hr
      | read ch =>
        constructor
        · intro r hr
          simp only [step, readQueue_chans_length, readQueue_subscribers] at hr ⊢
          exact h1 r hr
        · simp only [NoAlias, step, readQueue_subscribers]
          exact h2
    obtain ⟨e2, he2, hs2⟩ := ih (step mds a).1 hinv.1 hinv.2 hq'
    refine ⟨e1 ++ e2, ?_, ?_⟩
    · simp only [run, received_append, List.append_assoc]
      rw [he2, ← List.append_assoc, he1, List.append_assoc]
    · rw [dispatched_cons, List.filter_append]
      exact List.Sublist.append hs1 hs2

theorem delivery_at_most_once_witness :
    ∃ e, received 0 (run [.dispatch aapl, .read 0, .dispatch msft, .dispatch aapl]
          sampleHub).2 ++
        buffered (run [.dispatch aapl, .read 0, .dispatch msft, .dispatch aapl] sampleHub).1 0
        = buffered sampleHub 0 ++ e ∧
      e.Sublist ((dispatched [.dispatch aapl, .read 0, .dispatch msft, .dispatch aapl]).filter
        (fun r => r.Symbol = "AAPL")) :=
  delivery_at_most_once [.dispatch aapl, .read 0, .dispatch msft, .dispatch aapl]
    sampleHub "AAPL" 0 (by decide) (by decide) (by decide)


/-- C6: two source streams, consumed by two consumeSource loops that run
beside the fan-out loop, Subscribe calls and readers under any schedule, the
ingress channel being empty at the start.  For a queue registered under S:
the records that pass through the queue split into records of the first source
in the order of its stream and records of the second source in the order of
its stream; the loops drop, duplicate and reorder nothing (what each has
forwarded is a prefix of its stream, and the merge of the two prefixes is
exactly what was dispatched followed by what the ingress channel holds); the
queue gets a sublist of the dispatched records of symbol S, and all of them
when they fit into it; so once both streams are forwarded and dispatched and
fit, the queue has received every record of symbol S of either source, each
source in its order.  And there is a schedule that forwards and dispatches
every record of both streams. -/
theorem per_source_order (mds : MarketDataService) (s1 s2 : DataSource)
    (S : String) (q : ChanRef) (h1 : RefsInHeap mds) (h2 : NoAlias mds) (h3 : Bounded mds)
    (hq : q ∈ (mapGet mds.subscribers S).elems) (hdc : mds.dataChannel = makeChan 1000) :
    (∀ evs : List Event, ∃ e e1 e2 f1 f2,
      received q ((startPipeline mds s1 s2).exec evs).2 ++
        buffered ((startPipeline mds s1 s2).exec evs).1.mds q = buffered mds q ++ e ∧
      Interleave e1 e2 e ∧
      e1.Sublist (s1.stream.filter (fun r => r.Symbol = S)) ∧
      e2.Sublist (s2.stream.filter (fun r => r.Symbol = S)) ∧
      s1.stream = f1 ++ ((startPipeline mds s1 s2).exec evs).1.loop1.remaining ∧
      s2.stream = f2 ++ ((startPipeline mds s1 s2).exec evs).1.loop2.remaining ∧
      Interleave f1 f2 ((startPipeline mds s1 s2).dispatchedBy evs ++
        ((startPipeline mds s1 s2).exec evs).1.mds.dataChannel.buf) ∧
      e.Sublist (((startPipeline mds s1 s2).dispatchedBy evs).filter (fun r => r.Symbol = S)) ∧
      ((buffered mds q).length +
          (((startPipeline mds s1 s2).dispatchedBy evs).filter
            (fun r => r.Symbol = S)).length ≤ 100 →
        e = ((startPipeline mds s1 s2).dispatchedBy evs).filter (fun r => r.Symbol = S)) ∧
      (((startPipeline mds s1 s2).exec evs).1.loop1.remaining = [] →
        ((startPipeline mds s1 s2).exec evs).1.loop2.remaining = [] →
        ((startPipeline mds s1 s2).exec evs).1.mds.dataChannel.buf = [] →
        (buffered mds q).length + (s1.stream.filter (fun r => r.Symbol = S)).length +
          (s2.stream.filter (fun r => r.Symbol = S)).length ≤ 100 →
        Interleave (s1.stream.filter (fun r => r.Symbol = S))
          (s2.stream.filter (fun r => r.Symbol = S)) e)) ∧
    (((startPipeline mds s1 s2).exec
        (drainSchedule s1.stream.length s2.stream.length)).1.loop1.remaining = [] ∧
     ((startPipeline mds s1 s2).exec
        (drainSchedule s1.stream.length s2.stream.length)).1.loop2.remaining = [] ∧
     ((startPipeline mds s1 s2).exec
        (drainSchedule s1.stream.length s2.stream.length)).1.mds.dataChannel.buf = [] ∧
     (startPipeline mds s1 s2).dispatchedBy (drainSchedule s1.stream.length s2.stream.length)
       = s1.stream ++ s2.stream) := by
  have hbuf : (startPipeline mds s1 s2).mds.dataChannel.buf = [] := by
    show mds.dataChannel.buf = []
    rw [hdc]
    rfl
  have hcap : 0 < (startPipeline mds s1 s2).mds.dataChannel.cap := by
    show 0 < mds.dataChannel.cap
    rw [hdc]
    decide
  refine ⟨fun evs => ?_, drainSchedule_drains _ s1.stream s2.stream rfl rfl hbuf hcap⟩
  obtain ⟨e, he, e0, e1, e2, m, hem, h0, hs1, hs2, hm⟩ :=
    exec_ordered evs (startPipeline mds s1 s2) S q h1 h2 hq
  have hnil : e0 = [] := by
    rw [hbuf] at h0
    simpa using h0
  subst hnil
  obtain ⟨e', he', hsub, hexact⟩ := exec_delivery evs (startPipeline mds s1 s2) S q h1 h2 h3 hq
  have hee : e' = e := by
    have : buffered mds q ++ e' = buffered mds q ++ e := he'.symm.trans he
    exact List.append_cancel_left this
  subst hee
  obtain ⟨f1, f2, hI, hf1, hf2⟩ := exec_lossless evs (startPipeline mds s1 s2)
    s1.stream s2.stream [] [] [] (by rw [hbuf]; exact Interleave.nil) rfl rfl
  simp only [List.nil_append] at hI
  refine ⟨e', e1, e2, f1, f2, he, ?_, ?_, ?_, hf1, hf2, hI, hsub, hexact, ?_⟩
  · rw [hem]
    exact hm
  · simpa [startPipeline, consumeSource, Ingest.remaining] using hs1
  · simpa [startPipeline, consumeSource, Ingest.remaining] using hs2
  · intro hr1 hr2 hd hroom
    rw [hr1, List.append_nil] at hf1
    rw [hr2, List.append_nil] at hf2
    subst hf1 hf2
    rw [hd, List.append_nil] at hI
    have hIf := hI.filter (fun r => decide (r.Symbol = S))
    have hlen := hIf.length_eq
    have hexact' : (buffered mds q).length +
        (((startPipeline mds s1 s2).dispatchedBy evs).filter
          (fun r => decide (r.Symbol = S))).length ≤ 100 →
        e' = ((startPipeline mds s1 s2).dispatchedBy evs).filter
          (fun r => decide (r.Symbol = S)) := hexact
    rw [hexact' (by omega)]
    exact hIf

theorem per_source_order_witness :
    received 0 ((startPipeline sampleHub feedOne feedTwo).exec sampleSchedule).2 ++
        buffered ((startPipeline sampleHub feedOne feedTwo).exec sampleSchedule).1.mds 0
      = [{ Symbol := "AAPL", Price := 2, Volume := 2 }, aapl,
         { Symbol := "AAPL", Price := 3, Volume := 3 },
         { Symbol := "AAPL", Price := 1, Volume := 1 }] ∧
    Interleave (feedOne.stream.filter (fun r => r.Symbol = "AAPL"))
      (feedTwo.stream.filter (fun r => r.Symbol = "AAPL"))
      [{ Symbol := "AAPL", Price := 2, Volume := 2 }, aapl,
       { Symbol := "AAPL", Price := 3, Volume := 3 },
       { Symbol := "AAPL", Price := 1, Volume := 1 }] ∧
    (startPipeline sampleHub feedOne feedTwo).dispatchedBy
        (drainSchedule feedOne.stream.length feedTwo.stream.length)
      = feedOne.stream ++ feedTwo.stream := by
  have h := per_source_order sampleHub feedOne feedTwo "AAPL" 0
    (by decide) (by decide) (by decide) (by decide) rfl
  obtain ⟨e, e1, e2, f1, f2, he, _, _, _, _, _, _, _, _, hall⟩ := h.1 sampleSchedule
  have hval : received 0 ((startPipeline sampleHub feedOne feedTwo).exec sampleSchedule).2 ++
      buffered ((startPipeline sampleHub feedOne feedTwo).exec sampleSchedule).1.mds 0
      = [{ Symbol := "AAPL", Price := 2, Volume := 2 }, aapl,
         { Symbol := "AAPL", Price := 3, Volume := 3 },
         { Symbol := "AAPL", Price := 1, Volume := 1 }] := by decide
  have hb : buffered sampleHub 0 = [] := by decide
  rw [hval, hb, List.nil_append] at he
  subst he
  exact ⟨hval, hall (by decide) (by decide) (by decide) (by decide), h.2.2.2.2⟩

end MarketDataHub
